import Mathlib

/-!
# libbitcoin: transaction pool

A shallow embedding of `src/transaction_pool.cpp`.  The pool is a value that is
passed through every member function; what a member function does to the
outside world (a handler it calls, work it posts to the strand, a subscription
it renews) is returned as a list of effects, in program order.
-/

namespace libbitcoin

/-! ## Data model -/

/-- A 32-byte digest, read as the number its bytes spell. -/
abbrev hash_digest := Nat

/-- The list of input indexes a validation reports (`index_list`). -/
abbrev index_list := List Nat

/-- A `std::error_code` as the pool sees it: the default-constructed code, the
three named codes of `error.hpp` that the pool compares with or produces, and
every other code. -/
inductive error_code where
  | ok
  | input_not_found
  | duplicate
  | not_found
  | other (value : Nat)
  deriving DecidableEq, Repr

/-- The conversion `if (ec)`: true when the code is set. -/
def error_code.is_set (ec : error_code) : Bool :=
  decide (ec ≠ error_code.ok)

/-- Modelled from the spec: `message::transaction` (declared in
`messages.hpp`, which is not part of the sources at hand).  The pool relies on
its hash and on the number of its inputs only. -/
structure transaction where
  version : Nat
  locktime : Nat
  inputs : List Nat
  outputs : List Nat
  deriving DecidableEq, Repr

/-- Modelled from the spec: `message::block`; the pool reads
`block.transactions` only. -/
structure block where
  header : Nat
  transactions : List transaction
  deriving DecidableEq, Repr

/-- A `confirm_handler`, named by a number: the pool never looks inside one, it
stores it and calls it. -/
abbrev confirm_handler := Nat

/-- A `store_handler`: either a caller's own handler, or the handler that
`resubmit_all` builds, `std::bind(handle_resubmit, _1, entry.handle_confirm)`. -/
inductive store_handler where
  | user (id : Nat)
  | resubmit (handle_confirm : confirm_handler)
  deriving DecidableEq, Repr

/-- The entry kept in the pool (`transaction_entry_info`). -/
structure transaction_entry_info where
  hash : hash_digest
  tx : transaction
  handle_confirm : confirm_handler
  deriving DecidableEq, Repr

/-- What a member function of the pool does besides changing the pool. -/
inductive effect where
  /-- a store handler is called with `(ec, unconfirmed)` -/
  | handle_store (h : store_handler) (ec : error_code) (unconfirmed : index_list)
  /-- a confirm handler is called with `ec` -/
  | handle_confirm (h : confirm_handler) (ec : error_code)
  /-- a fetch handler is called with `(ec, tx)` -/
  | handle_fetch (h : Nat) (ec : error_code) (tx : transaction)
  /-- an exists handler is called with the answer -/
  | handle_exists (h : Nat) (found : Bool)
  /-- `store(tx, handle_confirm, handle_store)`: `do_store` is posted to the strand -/
  | post_store (tx : transaction) (handle_confirm : confirm_handler)
      (handle_store : store_handler)
  /-- `validate->start(...)` with `handle_delegate(_1, _2, tx_entry, handle_store)`
  as its completion -/
  | validate_start (tx_entry : transaction_entry_info) (handle_store : store_handler)
  /-- `chain_.subscribe_reorganize(...)` with `reorganize` as its handler -/
  | subscribe_reorganize
  deriving DecidableEq, Repr

/-- Modelled from the spec: the container of `pool_` (its type is declared in
`transaction_pool.hpp`, which is not part of the sources at hand).  The spec
calls it a bounded ordered sequence with a capacity, front first. -/
structure circular_buffer (α : Type) where
  capacity : Nat
  items : List α
  deriving DecidableEq, Repr

namespace circular_buffer

variable {α : Type}

/-- Number of elements held. -/
def size (b : circular_buffer α) : Nat := b.items.length

/-- Modelled from the spec: "Insertion is append-to-back; oldest-at-front
eviction when over capacity." -/
def push_back (b : circular_buffer α) (x : α) : circular_buffer α :=
  let appended := b.items ++ [x]
  { b with items := appended.drop (appended.length - b.capacity) }

/-- Remove every element; the capacity stays. -/
def clear (b : circular_buffer α) : circular_buffer α :=
  { b with items := [] }

end circular_buffer

/-- The type of `pool_`. -/
abbrev pool_buffer := circular_buffer transaction_entry_info

/-- Modelled from the spec: the macro `BITCOIN_ASSERT` of `utility/assert.hpp`
(not part of the sources at hand).  `checked` says whether assertions are
compiled in; a failed assertion ends the program, which is `none`. -/
def BITCOIN_ASSERT (checked : Bool) (expr : Bool) : Option Unit :=
  if checked && !expr then none else some ()

/-! ## The free function `handle_resubmit` -/

/-- `handle_resubmit(ec, handle_confirm)`. -/
def handle_resubmit (ec : error_code) (handle_confirm : confirm_handler) : List effect :=
  if ec.is_set then [effect.handle_confirm handle_confirm ec] else []

/-- Calling a store handler: the call itself, and for the handler bound by
`resubmit_all` what its body `handle_resubmit(_1, handle_confirm)` does. -/
def call_store (h : store_handler) (ec : error_code) (unconfirmed : index_list) :
    List effect :=
  effect.handle_store h ec unconfirmed ::
    match h with
    | store_handler.user _ => []
    | store_handler.resubmit handle_confirm => handle_resubmit ec handle_confirm

namespace transaction_pool

/-- The constructor: `pool_(2000)`, an empty buffer of capacity 2000. -/
def construct : pool_buffer := ⟨2000, []⟩

/-- `store`: posts `do_store` to the strand. -/
def store (stored_transaction : transaction) (handle_confirm : confirm_handler)
    (handle_store : store_handler) : List effect :=
  [effect.post_store stored_transaction handle_confirm handle_store]

/-- `do_store`: builds the entry and starts the validation, whose completion is
`handle_delegate` with that entry. -/
def do_store (hash_transaction : transaction → hash_digest)
    (stored_transaction : transaction) (handle_confirm : confirm_handler)
    (handle_store : store_handler) : List effect :=
  let new_tx_entry : transaction_entry_info :=
    ⟨hash_transaction stored_transaction, stored_transaction, handle_confirm⟩
  [effect.validate_start new_tx_entry handle_store]

/-- The loop of `tx_exists` over the entries. -/
def tx_exists_loop (tx_hash : hash_digest) : List transaction_entry_info → Bool
  | [] => false
  | entry :: rest => if entry.hash = tx_hash then true else tx_exists_loop tx_hash rest

/-- `tx_exists`. -/
def tx_exists (tx_hash : hash_digest) (pool_ : pool_buffer) : Bool :=
  tx_exists_loop tx_hash pool_.items

/-- `handle_delegate`, the completion of a validation. -/
def handle_delegate (checked : Bool) (ec : error_code) (unconfirmed : index_list)
    (tx_entry : transaction_entry_info) (handle_store : store_handler)
    (pool_ : pool_buffer) : Option (pool_buffer × List effect) :=
  if ec = error_code.input_not_found then
    (BITCOIN_ASSERT checked (unconfirmed.length == 1)).bind fun _ =>
    (BITCOIN_ASSERT checked
      (decide (unconfirmed.headD 0 < tx_entry.tx.inputs.length))).bind fun _ =>
    some (pool_, call_store handle_store ec unconfirmed)
  else if ec.is_set then
    (BITCOIN_ASSERT checked unconfirmed.isEmpty).bind fun _ =>
    some (pool_, call_store handle_store ec [])
  else if tx_exists tx_entry.hash pool_ then
    some (pool_, call_store handle_store error_code.duplicate [])
  else
    some (pool_.push_back tx_entry, call_store handle_store error_code.ok unconfirmed)

/-- The loop of `fetch` over the entries. -/
def fetch_loop (transaction_hash : hash_digest) (handle_fetch : Nat) :
    List transaction_entry_info → List effect
  | [] => [effect.handle_fetch handle_fetch error_code.not_found ⟨0, 0, [], []⟩]
  | entry :: rest =>
    if entry.hash = transaction_hash then
      [effect.handle_fetch handle_fetch error_code.ok entry.tx]
    else fetch_loop transaction_hash handle_fetch rest

/-- `fetch`: the body that runs on the strand. -/
def fetch (transaction_hash : hash_digest) (handle_fetch : Nat) (pool_ : pool_buffer) :
    List effect :=
  fetch_loop transaction_hash handle_fetch pool_.items

/-- `exists`: the body that runs on the strand. -/
def exists_ (transaction_hash : hash_digest) (handle_exists : Nat) (pool_ : pool_buffer) :
    List effect :=
  [effect.handle_exists handle_exists (tx_exists transaction_hash pool_)]

/-- The loop of `try_delete`: the first entry with the hash is erased and its
handler called with the default error code; the loop ends there. -/
def try_delete_loop (tx_hash : hash_digest) :
    List transaction_entry_info → List transaction_entry_info × List effect
  | [] => ([], [])
  | entry :: rest =>
    if entry.hash = tx_hash then
      (rest, [effect.handle_confirm entry.handle_confirm error_code.ok])
    else
      let r := try_delete_loop tx_hash rest
      (entry :: r.1, r.2)

/-- `try_delete`. -/
def try_delete (tx_hash : hash_digest) (pool_ : pool_buffer) : pool_buffer × List effect :=
  let r := try_delete_loop tx_hash pool_.items
  ({ pool_ with items := r.1 }, r.2)

/-- The inner loop of `takeout_confirmed`, over the transactions of one block. -/
def takeout_transactions (hash_transaction : transaction → hash_digest) :
    List transaction → pool_buffer → pool_buffer × List effect
  | [], pool_ => (pool_, [])
  | new_tx :: rest, pool_ =>
    let r := try_delete (hash_transaction new_tx) pool_
    let r2 := takeout_transactions hash_transaction rest r.1
    (r2.1, r.2 ++ r2.2)

/-- `takeout_confirmed`: the outer loop over the new blocks. -/
def takeout_confirmed (hash_transaction : transaction → hash_digest) :
    List block → pool_buffer → pool_buffer × List effect
  | [], pool_ => (pool_, [])
  | new_block :: rest, pool_ =>
    let r := takeout_transactions hash_transaction new_block.transactions pool_
    let r2 := takeout_confirmed hash_transaction rest r.1
    (r2.1, r.2 ++ r2.2)

/-- The loop of `resubmit_all`: one `store` per entry, front to back. -/
def resubmit_loop : List transaction_entry_info → List effect
  | [] => []
  | entry :: rest =>
    store entry.tx entry.handle_confirm (store_handler.resubmit entry.handle_confirm)
      ++ resubmit_loop rest

/-- `resubmit_all`. -/
def resubmit_all (pool_ : pool_buffer) : pool_buffer × List effect :=
  (pool_.clear, resubmit_loop pool_.items)

/-- `reorganize`, the handler of a reorganisation of the chain. -/
def reorganize (hash_transaction : transaction → hash_digest) (_ec : error_code)
    (_fork_point : Nat) (new_blocks replaced_blocks : List block) (pool_ : pool_buffer) :
    pool_buffer × List effect :=
  let r :=
    if !replaced_blocks.isEmpty then resubmit_all pool_
    else takeout_confirmed hash_transaction new_blocks pool_
  (r.1, r.2 ++ [effect.subscribe_reorganize])

/-! ## Executions of the pool -/

/-- One piece of work that runs on the strand of the pool. -/
inductive pool_op where
  | do_store (tx : transaction) (handle_confirm : confirm_handler)
      (handle_store : store_handler)
  | handle_delegate (ec : error_code) (unconfirmed : index_list)
      (tx_entry : transaction_entry_info) (handle_store : store_handler)
  | fetch (transaction_hash : hash_digest) (handle_fetch : Nat)
  | exists_ (transaction_hash : hash_digest) (handle_exists : Nat)
  | reorganize (ec : error_code) (fork_point : Nat) (new_blocks replaced_blocks : List block)
  | resubmit_all
  | takeout_confirmed (new_blocks : List block)
  | try_delete (tx_hash : hash_digest)
  deriving DecidableEq, Repr

/-- Run one piece of work on a pool. -/
def step (checked : Bool) (hash_transaction : transaction → hash_digest) :
    pool_op → pool_buffer → Option (pool_buffer × List effect)
  | pool_op.do_store tx hc hs, pool_ => some (pool_, do_store hash_transaction tx hc hs)
  | pool_op.handle_delegate ec unconfirmed tx_entry hs, pool_ =>
    handle_delegate checked ec unconfirmed tx_entry hs pool_
  | pool_op.fetch h hf, pool_ => some (pool_, fetch h hf pool_)
  | pool_op.exists_ h he, pool_ => some (pool_, exists_ h he pool_)
  | pool_op.reorganize ec fork_point new_blocks replaced_blocks, pool_ =>
    some (reorganize hash_transaction ec fork_point new_blocks replaced_blocks pool_)
  | pool_op.resubmit_all, pool_ => some (resubmit_all pool_)
  | pool_op.takeout_confirmed new_blocks, pool_ =>
    some (takeout_confirmed hash_transaction new_blocks pool_)
  | pool_op.try_delete tx_hash, pool_ => some (try_delete tx_hash pool_)

/-- Run a sequence of pieces of work, one after the other, collecting the
effects; `none` when an assertion fails on the way. -/
def run (checked : Bool) (hash_transaction : transaction → hash_digest) :
    List pool_op → pool_buffer → Option (pool_buffer × List effect)
  | [], pool_ => some (pool_, [])
  | op :: rest, pool_ =>
    match step checked hash_transaction op pool_ with
    | none => none
    | some r =>
      match run checked hash_transaction rest r.1 with
      | none => none
      | some r2 => some (r2.1, r.2 ++ r2.2)

/-- The hashes of the entries, front to back. -/
def hashes (entries : List transaction_entry_info) : List hash_digest :=
  entries.map (fun entry => entry.hash)

/-- The hashes of the transactions of the blocks, in the order in which
`takeout_confirmed` walks them. -/
def confirmed_hashes (hash_transaction : transaction → hash_digest) :
    List block → List hash_digest
  | [] => []
  | new_block :: rest =>
    new_block.transactions.map hash_transaction ++ confirmed_hashes hash_transaction rest

/-- `try_delete` for each hash of a list, in order. -/
def delete_each : List hash_digest → pool_buffer → pool_buffer × List effect
  | [], pool_ => (pool_, [])
  | tx_hash :: rest, pool_ =>
    let r := try_delete tx_hash pool_
    let r2 := delete_each rest r.1
    (r2.1, r.2 ++ r2.2)

/-- The call `handle_confirm(std::error_code())` of an entry. -/
def confirm_ok (entry : transaction_entry_info) : effect :=
  effect.handle_confirm entry.handle_confirm error_code.ok

/-- Whether an effect is a call of a confirm handler. -/
def is_confirm_call : effect → Bool
  | effect.handle_confirm _ _ => true
  | _ => false

/-- Whether an effect is a call of a store handler. -/
def is_store_call : effect → Bool
  | effect.handle_store _ _ _ => true
  | _ => false

/-- The invariant of the pool: the capacity of the constructor, no more entries
than the capacity, no two entries with one hash. -/
def pool_invariant (pool_ : pool_buffer) : Prop :=
  pool_.capacity = 2000 ∧ pool_.items.length ≤ 2000 ∧ (hashes pool_.items).Nodup

/-- An entry for examples: hash `i`, a transaction with one input, handler `i`. -/
def sample_entry (i : Nat) : transaction_entry_info :=
  ⟨i, ⟨1, i, [0], [0]⟩, i⟩

/-- A pool at its capacity: 2000 entries with the hashes 0 to 1999. -/
def full_pool : pool_buffer :=
  ⟨2000, (List.range 2000).map sample_entry⟩

/-- A hash function for examples: the lock time of the transaction. -/
def sample_hash (tx : transaction) : hash_digest := tx.locktime

/-- A pool for examples: three entries, with the hashes 1, 2 and 3. -/
def sample_pool : pool_buffer :=
  ⟨2000, [sample_entry 1, sample_entry 2, sample_entry 3]⟩

/-- A block for examples: its one transaction is that of the entry with hash 2. -/
def sample_block : block :=
  ⟨0, [(sample_entry 2).tx]⟩

/-- An execution for examples: a store, the same store again, another store. -/
def sample_stores : List pool_op :=
  [pool_op.handle_delegate error_code.ok [] (sample_entry 1) (store_handler.user 0),
   pool_op.handle_delegate error_code.ok [] (sample_entry 1) (store_handler.user 1),
   pool_op.handle_delegate error_code.ok [3] (sample_entry 2) (store_handler.user 2)]

/-- Where `sample_stores` leaves a new pool, and what it did. -/
def sample_stores_result : pool_buffer × List effect :=
  (⟨2000, [sample_entry 1, sample_entry 2]⟩,
   [effect.handle_store (store_handler.user 0) error_code.ok [],
    effect.handle_store (store_handler.user 1) error_code.duplicate [],
    effect.handle_store (store_handler.user 2) error_code.ok [3]])

/-- An execution for examples: two stores, then a new block with the first
transaction. -/
def sample_extension : List pool_op :=
  [pool_op.handle_delegate error_code.ok [] (sample_entry 1) (store_handler.user 0),
   pool_op.handle_delegate error_code.ok [] (sample_entry 2) (store_handler.user 1),
   pool_op.reorganize error_code.ok 0 [⟨0, [(sample_entry 1).tx]⟩] []]

/-- Where `sample_extension` leaves a new pool, and what it did. -/
def sample_extension_result : pool_buffer × List effect :=
  (⟨2000, [sample_entry 2]⟩,
   [effect.handle_store (store_handler.user 0) error_code.ok [],
    effect.handle_store (store_handler.user 1) error_code.ok [],
    effect.handle_confirm 1 error_code.ok,
    effect.subscribe_reorganize])

end transaction_pool

/-! ## The poller

A shallow embedding of `src/poller.cpp`.  The two members the poller writes,
`last_block_hash_` and `last_hash_end_`, are the state; what a member function
does to the channel, the chain and the log is returned as a list of effects, in
program order. -/

/-- Modelled from the spec: the kind of an inventory vector
(`message::inventory_type`, declared in `messages.hpp`, which is not part of
the sources at hand). -/
inductive inventory_type where
  | error
  | transaction
  | block
  deriving DecidableEq, Repr

/-- An inventory vector: a kind and a hash. -/
structure inventory_vector where
  type : inventory_type
  hash : hash_digest
  deriving DecidableEq, Repr

/-- The message `inventory`. -/
structure inventory where
  inventories : List inventory_vector
  deriving DecidableEq, Repr

/-- The message `get_data`, of the same shape as `inventory`. -/
structure get_data where
  inventories : List inventory_vector
  deriving DecidableEq, Repr

/-- A block locator: a sequence of block hashes (`message::block_locator`). -/
abbrev block_locator := List hash_digest

/-- The message `get_blocks`. -/
structure get_blocks where
  start_hashes : block_locator
  hash_stop : hash_digest
  deriving DecidableEq, Repr

/-- Modelled from the spec: the status the chain gives a stored block
(`block_status`, declared outside the sources at hand). -/
inductive block_status where
  | orphan
  | confirmed
  | rejected
  deriving DecidableEq, Repr

/-- What the chain answers to a store (`block_info`). -/
structure block_info where
  status : block_status
  depth : Nat
  deriving DecidableEq, Repr

/-- The hash of all zero bytes (`null_hash`). -/
def null_hash : hash_digest := 0

/-- The members of the poller that its functions read and write. -/
structure poller_state where
  last_block_hash_ : hash_digest
  last_hash_end_ : hash_digest
  deriving DecidableEq, Repr

/-- The completion handed to `fetch_block_locator`: `initial_ask_blocks`, or
`ask_blocks` with a bound stop hash. -/
inductive locator_handler where
  | initial_ask_blocks
  | ask_blocks (hash_stop : hash_digest)
  deriving DecidableEq, Repr

/-- What a function of the poller does besides changing the two members. -/
inductive poller_effect where
  /-- `node->send(getdata, handle_send_packet)` -/
  | send_get_data (packet : get_data)
  /-- `node->send(packet, ...)` with a `get_blocks` packet -/
  | send_get_blocks (packet : get_blocks)
  /-- `node->subscribe_inventory(...)` with `receive_inv` as its handler -/
  | subscribe_inventory
  /-- `node->subscribe_block(...)` with `receive_block` as its handler -/
  | subscribe_block
  /-- `chain_.store(blk, ...)` with `handle_store(_1, _2, block_hash, node)` as
  its completion -/
  | chain_store (blk : block) (block_hash : hash_digest)
  /-- `fetch_block_locator(chain_, completion)` -/
  | fetch_block_locator (completion : locator_handler)
  /-- `strand_.dispatch` of `ask_blocks(ec, locator, hash_stop, node)` -/
  | dispatch_ask_blocks (ec : error_code) (locator : block_locator) (hash_stop : hash_digest)
  /-- a line written with `log_error` -/
  | log_error
  /-- a line written with `log_info` -/
  | log_info
  /-- a line written with `log_debug` -/
  | log_debug
  deriving DecidableEq, Repr

namespace poller

/-- `query`: asks the chain for a block locator, with `initial_ask_blocks` as
the completion. -/
def query (s : poller_state) : poller_state × List poller_effect :=
  (s, [poller_effect.fetch_block_locator locator_handler.initial_ask_blocks])

/-- `monitor`: subscribes to inventories and to blocks. -/
def monitor (s : poller_state) : poller_state × List poller_effect :=
  (s, [poller_effect.subscribe_inventory, poller_effect.subscribe_block])

/-- `initial_ask_blocks`. -/
def initial_ask_blocks (ec : error_code) (locator : block_locator) (s : poller_state) :
    poller_state × List poller_effect :=
  if ec.is_set then (s, [poller_effect.log_error])
  else (s, [poller_effect.dispatch_ask_blocks ec locator null_hash])

/-- The loop of `receive_inv` that fills `getdata.inventories`. -/
def receive_inv_loop (last_block_hash_ : hash_digest) :
    List inventory_vector → List inventory_vector → List inventory_vector
  | [], getdata => getdata
  | ivv :: rest, getdata =>
    if ivv.type ≠ inventory_type.block then
      receive_inv_loop last_block_hash_ rest getdata
    else if ivv.hash = last_block_hash_ then
      receive_inv_loop last_block_hash_ rest getdata
    else
      receive_inv_loop last_block_hash_ rest (getdata ++ [ivv])

/-- `receive_inv`. -/
def receive_inv (ec : error_code) (packet : inventory) (s : poller_state) :
    poller_state × List poller_effect :=
  if ec.is_set then (s, [poller_effect.log_error])
  else
    let getdata := receive_inv_loop s.last_block_hash_ packet.inventories []
    let r : poller_state × List poller_effect :=
      if h : getdata ≠ [] then
        ({ s with last_block_hash_ := (getdata.getLast h).hash },
          [poller_effect.send_get_data ⟨getdata⟩])
      else (s, [])
    (r.1, r.2 ++ [poller_effect.subscribe_inventory])

/-- `receive_block`. -/
def receive_block (hash_block_header : block → hash_digest) (ec : error_code) (blk : block)
    (s : poller_state) : poller_state × List poller_effect :=
  if ec.is_set then (s, [poller_effect.log_error])
  else
    (s, [poller_effect.chain_store blk (hash_block_header blk),
         poller_effect.subscribe_block])

/-- `handle_store`. -/
def handle_store (ec : error_code) (info : block_info) (block_hash : hash_digest)
    (s : poller_state) : poller_state × List poller_effect :=
  if ec.is_set && decide (info.status ≠ block_status.orphan) then
    (s, [poller_effect.log_error])
  else
    match info.status with
    | block_status.orphan =>
      (s, [poller_effect.fetch_block_locator (locator_handler.ask_blocks block_hash)])
    | block_status.rejected => (s, [poller_effect.log_error])
    | block_status.confirmed => (s, [poller_effect.log_info])

/-- `ask_blocks`.  `locator.front()` of an empty locator is undefined, which is
`none`. -/
def ask_blocks (ec : error_code) (locator : block_locator) (hash_stop : hash_digest)
    (s : poller_state) : Option (poller_state × List poller_effect) :=
  if ec.is_set then some (s, [poller_effect.log_error])
  else
    match locator.head? with
    | none => none
    | some front =>
      if s.last_hash_end_ = front then some (s, [poller_effect.log_debug])
      else
        some ({ s with last_hash_end_ := front },
          [poller_effect.send_get_blocks ⟨locator, hash_stop⟩])

/-- Running the completion of a `fetch_block_locator` with the answer of the
chain. -/
def call_locator_handler (completion : locator_handler) (ec : error_code)
    (locator : block_locator) (s : poller_state) :
    Option (poller_state × List poller_effect) :=
  match completion with
  | locator_handler.initial_ask_blocks => some (initial_ask_blocks ec locator s)
  | locator_handler.ask_blocks hash_stop => ask_blocks ec locator hash_stop s

/-! ### Executions of the poller -/

/-- One handler of the poller that runs. -/
inductive event where
  | query
  | monitor
  | initial_ask_blocks (ec : error_code) (locator : block_locator)
  | ask_blocks (ec : error_code) (locator : block_locator) (hash_stop : hash_digest)
  | receive_inv (ec : error_code) (packet : inventory)
  | receive_block (ec : error_code) (blk : block)
  | handle_store (ec : error_code) (info : block_info) (block_hash : hash_digest)
  deriving DecidableEq, Repr

/-- Run one handler. -/
def step (hash_block_header : block → hash_digest) :
    event → poller_state → Option (poller_state × List poller_effect)
  | event.query, s => some (query s)
  | event.monitor, s => some (monitor s)
  | event.initial_ask_blocks ec locator, s => some (initial_ask_blocks ec locator s)
  | event.ask_blocks ec locator hash_stop, s => ask_blocks ec locator hash_stop s
  | event.receive_inv ec packet, s => some (receive_inv ec packet s)
  | event.receive_block ec blk, s => some (receive_block hash_block_header ec blk s)
  | event.handle_store ec info block_hash, s => some (handle_store ec info block_hash s)

/-- Run a sequence of handlers, one after the other, collecting the effects;
`none` when `ask_blocks` meets an empty locator on the way. -/
def run (hash_block_header : block → hash_digest) :
    List event → poller_state → Option (poller_state × List poller_effect)
  | [], s => some (s, [])
  | ev :: rest, s =>
    match step hash_block_header ev s with
    | none => none
    | some r =>
      match run hash_block_header rest r.1 with
      | none => none
      | some r2 => some (r2.1, r.2 ++ r2.2)

/-- The locator fronts of the `get_blocks` messages among the effects, in the
order in which they were sent. -/
def sent_fronts : List poller_effect → List hash_digest
  | [] => []
  | poller_effect.send_get_blocks packet :: rest =>
    match packet.start_hashes.head? with
    | some front => front :: sent_fronts rest
    | none => sent_fronts rest
  | _ :: rest => sent_fronts rest

/-- Whether an effect sends a message to the peer. -/
def is_send : poller_effect → Bool
  | poller_effect.send_get_data _ => true
  | poller_effect.send_get_blocks _ => true
  | _ => false

/-- Whether an effect asks the chain for a block locator. -/
def is_fetch_block_locator : poller_effect → Bool
  | poller_effect.fetch_block_locator _ => true
  | _ => false

/-- Whether an event is `ask_blocks` with no error and an empty locator, the
one event on which `run` stops. -/
def asks_with_empty_locator : event → Bool
  | event.ask_blocks ec locator _ => !ec.is_set && locator.isEmpty
  | _ => false

/-- The sublist the spec describes for an inventory: the entries of kind block
whose hash differs from a given hash, in their order. -/
def wanted_blocks (last_block_hash_ : hash_digest) (entries : List inventory_vector) :
    List inventory_vector :=
  entries.filter (fun ivv =>
    decide (ivv.type = inventory_type.block) && decide (ivv.hash ≠ last_block_hash_))

/-- A block hash function for examples: the header number. -/
def sample_hash_block_header (blk : block) : hash_digest := blk.header

/-- An execution for examples: an initial ask, the same locator front asked
again, an inventory, an orphan, and an ask with a new front. -/
def sample_events : List event :=
  [event.ask_blocks error_code.ok [5, 4] null_hash,
   event.ask_blocks error_code.ok [5, 3] 9,
   event.receive_inv error_code.ok ⟨[⟨inventory_type.block, 6⟩]⟩,
   event.handle_store error_code.ok ⟨block_status.orphan, 0⟩ 6,
   event.ask_blocks error_code.ok [7, 5] 6]

/-- Where `sample_events` leaves the poller that starts with both members 0,
and what it did. -/
def sample_events_result : poller_state × List poller_effect :=
  (⟨6, 7⟩,
   [poller_effect.send_get_blocks ⟨[5, 4], 0⟩,
    poller_effect.log_debug,
    poller_effect.send_get_data ⟨[⟨inventory_type.block, 6⟩]⟩,
    poller_effect.subscribe_inventory,
    poller_effect.fetch_block_locator (locator_handler.ask_blocks 6),
    poller_effect.send_get_blocks ⟨[7, 5], 6⟩])

end poller

/-! ## Lemmas on the container -/

namespace circular_buffer

variable {α : Type}

theorem push_back_capacity (b : circular_buffer α) (x : α) :
    (b.push_back x).capacity = b.capacity := rfl

theorem push_back_items (b : circular_buffer α) (x : α) :
    (b.push_back x).items = (b.items ++ [x]).drop (b.items.length + 1 - b.capacity) := by
  simp [push_back]

theorem push_back_sublist (b : circular_buffer α) (x : α) :
    (b.push_back x).items.Sublist (b.items ++ [x]) := by
  rw [push_back_items]
  exact List.drop_sublist _ _

theorem push_back_length_le (b : circular_buffer α) (x : α) :
    (b.push_back x).items.length ≤ b.capacity := by
  rw [push_back_items]
  simp only [List.length_drop, List.length_append, List.length_singleton]
  omega

theorem push_back_of_lt (b : circular_buffer α) (x : α) (h : b.items.length < b.capacity) :
    (b.push_back x).items = b.items ++ [x] := by
  rw [push_back_items]
  have h0 : b.items.length + 1 - b.capacity = 0 := by omega
  rw [h0, List.drop_zero]

theorem push_back_of_full (b : circular_buffer α) (x : α)
    (h : b.items.length = b.capacity) (hpos : 0 < b.capacity) :
    (b.push_back x).items = b.items.tail ++ [x] := by
  rw [push_back_items]
  have h1 : b.items.length + 1 - b.capacity = 1 := by omega
  rw [h1]
  cases hb : b.items with
  | nil => rw [hb] at h; simp at h; omega
  | cons y ys => simp

end circular_buffer

/-! ## Lemmas on the pool -/

namespace transaction_pool

theorem tx_exists_loop_iff (tx_hash : hash_digest) (entries : List transaction_entry_info) :
    tx_exists_loop tx_hash entries = true ↔ tx_hash ∈ hashes entries := by
  induction entries with
  | nil => simp [tx_exists_loop, hashes]
  | cons entry rest ih =>
    unfold tx_exists_loop
    by_cases h : entry.hash = tx_hash
    · simp [h, hashes]
    · have h2 : ¬ tx_hash = entry.hash := fun e => h e.symm
      simp only [h, if_false, ih]
      simp [hashes, h2]

theorem tx_exists_false_iff (tx_hash : hash_digest) (pool_ : pool_buffer) :
    tx_exists tx_hash pool_ = false ↔ tx_hash ∉ hashes pool_.items := by
  unfold tx_exists
  rw [← tx_exists_loop_iff]
  simp

theorem hashes_sublist {l₁ l₂ : List transaction_entry_info} (h : l₁.Sublist l₂) :
    (hashes l₁).Sublist (hashes l₂) :=
  h.map _

theorem try_delete_loop_sublist (tx_hash : hash_digest) (entries : List transaction_entry_info) :
    (try_delete_loop tx_hash entries).1.Sublist entries := by
  induction entries with
  | nil => simp [try_delete_loop]
  | cons entry rest ih =>
    unfold try_delete_loop
    by_cases h : entry.hash = tx_hash
    · simp [h]
    · simp only [h, if_false]
      exact ih.cons₂ entry

theorem try_delete_loop_length_le (tx_hash : hash_digest)
    (entries : List transaction_entry_info) :
    (try_delete_loop tx_hash entries).1.length ≤ entries.length :=
  (try_delete_loop_sublist tx_hash entries).length_le

/-- On entries without two equal hashes, the loop of `try_delete` keeps the
entries with another hash and confirms the entries with the hash. -/
theorem try_delete_loop_nodup (tx_hash : hash_digest) (entries : List transaction_entry_info)
    (hnd : (hashes entries).Nodup) :
    (try_delete_loop tx_hash entries).1
        = entries.filter (fun entry => decide (entry.hash ≠ tx_hash)) ∧
    (try_delete_loop tx_hash entries).2
        = (entries.filter (fun entry => decide (entry.hash = tx_hash))).map confirm_ok := by
  induction entries with
  | nil => simp [try_delete_loop]
  | cons entry rest ih =>
    have hnd2 : entry.hash ∉ hashes rest ∧ (hashes rest).Nodup := by
      simpa [hashes] using hnd
    unfold try_delete_loop
    by_cases h : entry.hash = tx_hash
    · have hnot : ∀ x ∈ rest, x.hash ≠ tx_hash := by
        intro x hx hxe
        apply hnd2.1
        rw [h, ← hxe]
        exact List.mem_map_of_mem _ hx
      have hkeep : rest.filter (fun entry => decide (entry.hash ≠ tx_hash)) = rest := by
        rw [List.filter_eq_self]
        intro x hx
        simpa using hnot x hx
      have hdrop : rest.filter (fun entry => decide (entry.hash = tx_hash)) = [] := by
        rw [List.filter_eq_nil_iff]
        intro x hx
        simpa using hnot x hx
      have hneg : ¬ (decide (entry.hash ≠ tx_hash) = true) := by simp [h]
      have hpos : decide (entry.hash = tx_hash) = true := by simp [h]
      rw [if_pos h]
      refine ⟨?_, ?_⟩
      · rw [List.filter_cons, if_neg hneg]
        exact hkeep.symm
      · rw [List.filter_cons, if_pos hpos, hdrop]
        rfl
    · obtain ⟨ih1, ih2⟩ := ih hnd2.2
      simp [h, ih1, ih2]

theorem try_delete_capacity (tx_hash : hash_digest) (pool_ : pool_buffer) :
    (try_delete tx_hash pool_).1.capacity = pool_.capacity := rfl

theorem try_delete_sublist (tx_hash : hash_digest) (pool_ : pool_buffer) :
    (try_delete tx_hash pool_).1.items.Sublist pool_.items :=
  try_delete_loop_sublist tx_hash pool_.items

theorem delete_each_capacity (tx_hashes : List hash_digest) (pool_ : pool_buffer) :
    (delete_each tx_hashes pool_).1.capacity = pool_.capacity := by
  induction tx_hashes generalizing pool_ with
  | nil => rfl
  | cons tx_hash rest ih =>
    simp only [delete_each]
    rw [ih, try_delete_capacity]

theorem delete_each_sublist (tx_hashes : List hash_digest) (pool_ : pool_buffer) :
    (delete_each tx_hashes pool_).1.items.Sublist pool_.items := by
  induction tx_hashes generalizing pool_ with
  | nil => exact List.Sublist.refl _
  | cons tx_hash rest ih =>
    simp only [delete_each]
    exact (ih _).trans (try_delete_sublist tx_hash pool_)

theorem delete_each_append (l₁ l₂ : List hash_digest) (pool_ : pool_buffer) :
    delete_each (l₁ ++ l₂) pool_ =
      ((delete_each l₂ (delete_each l₁ pool_).1).1,
        (delete_each l₁ pool_).2 ++ (delete_each l₂ (delete_each l₁ pool_).1).2) := by
  induction l₁ generalizing pool_ with
  | nil => simp [delete_each]
  | cons tx_hash rest ih =>
    have e := ih (try_delete tx_hash pool_).1
    show delete_each (tx_hash :: (rest ++ l₂)) pool_ = _
    simp only [delete_each]
    rw [e]
    simp [List.append_assoc]

theorem takeout_transactions_eq (hash_transaction : transaction → hash_digest)
    (txs : List transaction) (pool_ : pool_buffer) :
    takeout_transactions hash_transaction txs pool_
      = delete_each (txs.map hash_transaction) pool_ := by
  induction txs generalizing pool_ with
  | nil => rfl
  | cons new_tx rest ih =>
    simp only [takeout_transactions, List.map_cons, delete_each]
    rw [ih]

/-- The two loops of `takeout_confirmed` are one walk over the hashes of the
transactions of the blocks. -/
theorem takeout_confirmed_eq (hash_transaction : transaction → hash_digest)
    (new_blocks : List block) (pool_ : pool_buffer) :
    takeout_confirmed hash_transaction new_blocks pool_
      = delete_each (confirmed_hashes hash_transaction new_blocks) pool_ := by
  induction new_blocks generalizing pool_ with
  | nil => rfl
  | cons new_block rest ih =>
    simp only [takeout_confirmed, confirmed_hashes]
    rw [delete_each_append, ih, takeout_transactions_eq]

theorem mem_confirmed_hashes (hash_transaction : transaction → hash_digest)
    (new_blocks : List block) (tx_hash : hash_digest) :
    tx_hash ∈ confirmed_hashes hash_transaction new_blocks ↔
      ∃ new_block ∈ new_blocks, ∃ new_tx ∈ new_block.transactions,
        hash_transaction new_tx = tx_hash := by
  induction new_blocks with
  | nil => simp [confirmed_hashes]
  | cons new_block rest ih =>
    simp only [confirmed_hashes, List.mem_append, List.mem_map, ih, List.mem_cons]
    constructor
    · rintro (⟨new_tx, hmem, heq⟩ | ⟨b, hb, new_tx, hmem, heq⟩)
      · exact ⟨new_block, Or.inl rfl, new_tx, hmem, heq⟩
      · exact ⟨b, Or.inr hb, new_tx, hmem, heq⟩
    · rintro ⟨b, hb | hb, new_tx, hmem, heq⟩
      · subst hb
        exact Or.inl ⟨new_tx, hmem, heq⟩
      · exact Or.inr ⟨b, hb, new_tx, hmem, heq⟩

theorem BITCOIN_ASSERT_unchecked (expr : Bool) : BITCOIN_ASSERT false expr = some () := rfl

theorem BITCOIN_ASSERT_of_true (checked : Bool) : BITCOIN_ASSERT checked true = some () := by
  cases checked <;> rfl

theorem BITCOIN_ASSERT_bind {β : Type} (checked expr : Bool) (k : Option β) (r : β)
    (h : (BITCOIN_ASSERT checked expr).bind (fun _ => k) = some r) : k = some r := by
  unfold BITCOIN_ASSERT at h
  split at h
  · simp at h
  · simpa using h

/-- What `handle_delegate` does to the pool when it returns: nothing, or the
`push_back` of an entry whose hash the pool did not hold. -/
theorem handle_delegate_pool (checked : Bool) (ec : error_code) (unconfirmed : index_list)
    (tx_entry : transaction_entry_info) (handle_store : store_handler)
    (pool_ : pool_buffer) (r : pool_buffer × List effect)
    (h : handle_delegate checked ec unconfirmed tx_entry handle_store pool_ = some r) :
    r.1 = pool_ ∨
      (tx_exists tx_entry.hash pool_ = false ∧ r.1 = pool_.push_back tx_entry) := by
  unfold handle_delegate at h
  split at h
  · have h2 := BITCOIN_ASSERT_bind _ _ _ _ (BITCOIN_ASSERT_bind _ _ _ _ h)
    simp only [Option.some.injEq] at h2
    left
    rw [← h2]
  · split at h
    · have h2 := BITCOIN_ASSERT_bind _ _ _ _ h
      simp only [Option.some.injEq] at h2
      left
      rw [← h2]
    · split at h
      · simp only [Option.some.injEq] at h
        left
        rw [← h]
      · rename_i hex
        simp only [Option.some.injEq] at h
        right
        refine ⟨by simpa using hex, ?_⟩
        rw [← h]

/-- Without assertions `handle_delegate` always returns. -/
theorem handle_delegate_unchecked (ec : error_code) (unconfirmed : index_list)
    (tx_entry : transaction_entry_info) (handle_store : store_handler)
    (pool_ : pool_buffer) :
    (handle_delegate false ec unconfirmed tx_entry handle_store pool_).isSome = true := by
  unfold handle_delegate
  split
  · simp [BITCOIN_ASSERT_unchecked]
  · split
    · simp [BITCOIN_ASSERT_unchecked]
    · split <;> simp

/-- The accepting branch of `handle_delegate`. -/
theorem handle_delegate_accept (checked : Bool) (unconfirmed : index_list)
    (tx_entry : transaction_entry_info) (handle_store : store_handler)
    (pool_ : pool_buffer) (hnew : tx_exists tx_entry.hash pool_ = false) :
    handle_delegate checked error_code.ok unconfirmed tx_entry handle_store pool_
      = some (pool_.push_back tx_entry,
          call_store handle_store error_code.ok unconfirmed) := by
  simp [handle_delegate, error_code.is_set, hnew]

/-- A store handler called with the default error code: the call, and nothing else. -/
theorem call_store_ok (handle_store : store_handler) (unconfirmed : index_list) :
    call_store handle_store error_code.ok unconfirmed
      = [effect.handle_store handle_store error_code.ok unconfirmed] := by
  cases handle_store <;> simp [call_store, handle_resubmit, error_code.is_set]

theorem resubmit_loop_eq (entries : List transaction_entry_info) :
    resubmit_loop entries = entries.map (fun entry =>
      effect.post_store entry.tx entry.handle_confirm
        (store_handler.resubmit entry.handle_confirm)) := by
  induction entries with
  | nil => rfl
  | cons entry rest ih => simp [resubmit_loop, store, ih]

theorem pool_invariant_construct : pool_invariant construct := by
  simp [pool_invariant, construct, hashes]

theorem pool_invariant_of_sublist (pool_ q : pool_buffer) (hinv : pool_invariant pool_)
    (hcap : q.capacity = pool_.capacity) (hsub : q.items.Sublist pool_.items) :
    pool_invariant q := by
  obtain ⟨h1, h2, h3⟩ := hinv
  exact ⟨hcap.trans h1, le_trans hsub.length_le h2, h3.sublist (hashes_sublist hsub)⟩

theorem pool_invariant_push_back (pool_ : pool_buffer) (tx_entry : transaction_entry_info)
    (hinv : pool_invariant pool_) (hnew : tx_exists tx_entry.hash pool_ = false) :
    pool_invariant (pool_.push_back tx_entry) := by
  obtain ⟨h1, _, h3⟩ := hinv
  refine ⟨h1, ?_, ?_⟩
  · have := circular_buffer.push_back_length_le pool_ tx_entry
    omega
  · have hall : (hashes (pool_.items ++ [tx_entry])).Nodup := by
      have hnot := (tx_exists_false_iff tx_entry.hash pool_).1 hnew
      simp only [hashes, List.map_append, List.map_cons, List.map_nil]
      rw [List.nodup_append]
      refine ⟨h3, List.nodup_singleton _, ?_⟩
      intro a ha hb
      simp only [List.mem_singleton] at hb
      subst hb
      exact hnot ha
    exact hall.sublist (hashes_sublist (circular_buffer.push_back_sublist pool_ tx_entry))

/-- Every piece of work keeps the invariant of the pool. -/
theorem step_invariant (checked : Bool) (hash_transaction : transaction → hash_digest)
    (op : pool_op) (pool_ : pool_buffer) (r : pool_buffer × List effect)
    (hinv : pool_invariant pool_) (hstep : step checked hash_transaction op pool_ = some r) :
    pool_invariant r.1 := by
  cases op with
  | do_store tx hc hs =>
    simp only [step, Option.some.injEq] at hstep
    rw [← hstep]; exact hinv
  | handle_delegate ec unconfirmed tx_entry hs =>
    rcases handle_delegate_pool checked ec unconfirmed tx_entry hs pool_ r hstep with h | ⟨h1, h2⟩
    · rw [h]; exact hinv
    · rw [h2]; exact pool_invariant_push_back pool_ tx_entry hinv h1
  | fetch h hf =>
    simp only [step, Option.some.injEq] at hstep
    rw [← hstep]; exact hinv
  | exists_ h he =>
    simp only [step, Option.some.injEq] at hstep
    rw [← hstep]; exact hinv
  | reorganize ec fork_point new_blocks replaced_blocks =>
    simp only [step, Option.some.injEq] at hstep
    rw [← hstep]
    simp only [reorganize]
    split
    · exact pool_invariant_of_sublist pool_ _ hinv rfl (List.nil_sublist _)
    · rw [takeout_confirmed_eq]
      exact pool_invariant_of_sublist pool_ _ hinv (delete_each_capacity _ _)
        (delete_each_sublist _ _)
  | resubmit_all =>
    simp only [step, Option.some.injEq] at hstep
    rw [← hstep]
    exact pool_invariant_of_sublist pool_ _ hinv rfl (List.nil_sublist _)
  | takeout_confirmed new_blocks =>
    simp only [step, Option.some.injEq] at hstep
    rw [← hstep, takeout_confirmed_eq]
    exact pool_invariant_of_sublist pool_ _ hinv (delete_each_capacity _ _)
      (delete_each_sublist _ _)
  | try_delete tx_hash =>
    simp only [step, Option.some.injEq] at hstep
    rw [← hstep]
    exact pool_invariant_of_sublist pool_ _ hinv rfl (try_delete_sublist _ _)

/-- Every execution keeps the invariant of the pool. -/
theorem run_invariant (checked : Bool) (hash_transaction : transaction → hash_digest)
    (ops : List pool_op) (pool_ : pool_buffer) (r : pool_buffer × List effect)
    (hinv : pool_invariant pool_) (hrun : run checked hash_transaction ops pool_ = some r) :
    pool_invariant r.1 := by
  induction ops generalizing pool_ r with
  | nil =>
    simp only [run, Option.some.injEq] at hrun
    rw [← hrun]; exact hinv
  | cons op rest ih =>
    simp only [run] at hrun
    cases hs : step checked hash_transaction op pool_ with
    | none => simp [hs] at hrun
    | some r1 =>
      cases hr : run checked hash_transaction rest r1.1 with
      | none => simp [hs, hr] at hrun
      | some r2 =>
        simp only [hs, hr, Option.some.injEq] at hrun
        rw [← hrun]
        exact ih r1.1 r2 (step_invariant checked hash_transaction op pool_ r1 hinv hs) hr

/-- Without assertions every execution runs to its end. -/
theorem run_unchecked (hash_transaction : transaction → hash_digest)
    (ops : List pool_op) (pool_ : pool_buffer) :
    (run false hash_transaction ops pool_).isSome = true := by
  induction ops generalizing pool_ with
  | nil => rfl
  | cons op rest ih =>
    have hstep : (step false hash_transaction op pool_).isSome = true := by
      cases op <;> simp [step, handle_delegate_unchecked]
    simp only [run]
    cases hs : step false hash_transaction op pool_ with
    | none => simp [hs] at hstep
    | some r1 =>
      have := ih r1.1
      cases hr : run false hash_transaction rest r1.1 with
      | none => simp [hr] at this
      | some r2 => simp [hr]

theorem perm_filter_split {α : Type} (a b : α → Bool) (l : List α) :
    (l.filter a ++ l.filter (fun x => !a x && b x)).Perm (l.filter (fun x => a x || b x)) := by
  induction l with
  | nil => simp
  | cons x xs ih =>
    cases ha : a x <;> cases hb : b x
    · simpa [List.filter_cons, ha, hb] using ih
    · simp only [List.filter_cons, ha, hb, Bool.not_false, Bool.and_self, Bool.or_true,
        if_true, if_false, Bool.false_eq_true]
      exact List.perm_middle.trans (ih.cons x)
    · simpa [List.filter_cons, ha, hb] using ih
    · simpa [List.filter_cons, ha, hb] using ih

/-- On a pool without two equal hashes, deleting each hash of a list keeps
exactly the entries whose hash is not in the list, in their order, and confirms
each of the other entries once. -/
theorem delete_each_nodup (tx_hashes : List hash_digest) (pool_ : pool_buffer)
    (hnd : (hashes pool_.items).Nodup) :
    (delete_each tx_hashes pool_).1.items
        = pool_.items.filter (fun entry => decide (entry.hash ∉ tx_hashes)) ∧
    (delete_each tx_hashes pool_).2.Perm
        ((pool_.items.filter (fun entry => decide (entry.hash ∈ tx_hashes))).map confirm_ok) := by
  induction tx_hashes generalizing pool_ with
  | nil => simp [delete_each]
  | cons tx_hash rest ih =>
    obtain ⟨hk, hc⟩ := try_delete_loop_nodup tx_hash pool_.items hnd
    have hnd1 : (hashes (try_delete tx_hash pool_).1.items).Nodup :=
      hnd.sublist (hashes_sublist (try_delete_sublist tx_hash pool_))
    obtain ⟨ih1, ih2⟩ := ih (try_delete tx_hash pool_).1 hnd1
    have hitems : (try_delete tx_hash pool_).1.items
        = pool_.items.filter (fun entry => decide (entry.hash ≠ tx_hash)) := hk
    have hcalls : (try_delete tx_hash pool_).2
        = (pool_.items.filter (fun entry => decide (entry.hash = tx_hash))).map confirm_ok := hc
    simp only [delete_each]
    refine ⟨?_, ?_⟩
    · rw [ih1, hitems, List.filter_filter]
      apply List.filter_congr
      intro x _
      simp only [List.mem_cons, not_or, ne_eq, decide_not, Bool.decide_and]
      exact Bool.and_comm _ _
    · rw [hcalls]
      rw [hitems, List.filter_filter] at ih2
      refine (List.Perm.append_left _ ih2).trans ?_
      rw [← List.map_append]
      apply List.Perm.map
      have hsplit := perm_filter_split (fun entry => decide (entry.hash = tx_hash))
        (fun entry => decide (entry.hash ∈ rest)) pool_.items
      have e1 : pool_.items.filter (fun a => decide (a.hash ∈ rest) && decide (a.hash ≠ tx_hash))
          = pool_.items.filter
              (fun x => !decide (x.hash = tx_hash) && decide (x.hash ∈ rest)) := by
        apply List.filter_congr
        intro x _
        simp [Bool.and_comm]
      have e2 : pool_.items.filter (fun entry => decide (entry.hash ∈ tx_hash :: rest))
          = pool_.items.filter
              (fun x => decide (x.hash = tx_hash) || decide (x.hash ∈ rest)) := by
        apply List.filter_congr
        intro x _
        simp
      rw [e1, e2]
      exact hsplit

theorem full_pool_length : full_pool.items.length = 2000 := by
  simp only [full_pool, List.length_map, List.length_range]

theorem full_pool_fresh : tx_exists (sample_entry 2000).hash full_pool = false := by
  rw [tx_exists_false_iff]
  simp [hashes, full_pool, sample_entry]

theorem full_pool_items :
    full_pool.items
      = sample_entry 0 :: (List.range 1999).map (fun i => sample_entry (i + 1)) := by
  have h : (2000 : Nat) = 1999 + 1 := rfl
  unfold full_pool
  simp only
  rw [h, List.range_succ_eq_map, List.map_cons, List.map_map]
  rfl

theorem BITCOIN_ASSERT_of_imp (checked expr : Bool) (h : checked = true → expr = true) :
    BITCOIN_ASSERT checked expr = some () := by
  cases checked
  · rfl
  · rw [h rfl]
    rfl

/-- Among the effects of calling a store handler, the calls of store handlers
are that one call. -/
theorem store_calls_call_store (handle_store : store_handler) (ec : error_code)
    (unconfirmed : index_list) :
    (call_store handle_store ec unconfirmed).filter is_store_call
      = [effect.handle_store handle_store ec unconfirmed] := by
  cases handle_store with
  | user id => rfl
  | resubmit handle_confirm =>
    simp only [call_store, handle_resubmit]
    split <;> rfl

/-- The handler bound by `resubmit_all`, called with a set error code: the call,
then the confirm handler with the same code. -/
theorem call_store_resubmit_error (handle_confirm : confirm_handler) (ec : error_code)
    (unconfirmed : index_list) (hec : ec ≠ error_code.ok) :
    call_store (store_handler.resubmit handle_confirm) ec unconfirmed
      = [effect.handle_store (store_handler.resubmit handle_confirm) ec unconfirmed,
         effect.handle_confirm handle_confirm ec] := by
  simp [call_store, handle_resubmit, error_code.is_set, hec]

/-- The branch `ec == error::input_not_found` of `handle_delegate`. -/
theorem handle_delegate_input_not_found (checked : Bool) (unconfirmed : index_list)
    (tx_entry : transaction_entry_info) (handle_store : store_handler) (pool_ : pool_buffer)
    (hassert : checked = true →
      unconfirmed.length = 1 ∧ unconfirmed.headD 0 < tx_entry.tx.inputs.length) :
    handle_delegate checked error_code.input_not_found unconfirmed tx_entry handle_store pool_
      = some (pool_, call_store handle_store error_code.input_not_found unconfirmed) := by
  unfold handle_delegate
  rw [if_pos rfl,
    BITCOIN_ASSERT_of_imp checked (unconfirmed.length == 1)
      (fun hc => by simp [(hassert hc).1]),
    BITCOIN_ASSERT_of_imp checked (decide (unconfirmed.headD 0 < tx_entry.tx.inputs.length))
      (fun hc => decide_eq_true (hassert hc).2)]
  rfl

/-- The branch `else if (ec)` of `handle_delegate`. -/
theorem handle_delegate_other_error (checked : Bool) (ec : error_code)
    (unconfirmed : index_list) (tx_entry : transaction_entry_info)
    (handle_store : store_handler) (pool_ : pool_buffer)
    (h1 : ec ≠ error_code.input_not_found) (h2 : ec ≠ error_code.ok)
    (hassert : checked = true → unconfirmed = []) :
    handle_delegate checked ec unconfirmed tx_entry handle_store pool_
      = some (pool_, call_store handle_store ec []) := by
  unfold handle_delegate
  have hset : ec.is_set = true := by simp [error_code.is_set, h2]
  rw [if_neg h1, if_pos hset,
    BITCOIN_ASSERT_of_imp checked unconfirmed.isEmpty (fun hc => by simp [hassert hc])]
  rfl

/-- The branch `else if (tx_exists(tx_entry.hash))` of `handle_delegate`. -/
theorem handle_delegate_duplicate (checked : Bool) (unconfirmed : index_list)
    (tx_entry : transaction_entry_info) (handle_store : store_handler) (pool_ : pool_buffer)
    (hdup : tx_exists tx_entry.hash pool_ = true) :
    handle_delegate checked error_code.ok unconfirmed tx_entry handle_store pool_
      = some (pool_, call_store handle_store error_code.duplicate []) := by
  simp [handle_delegate, error_code.is_set, hdup]

/-- When `handle_delegate` returns it has called the store handler once, with
the error code of the validation when that is set, and else with `duplicate`
or the default code according to `tx_exists`. -/
theorem handle_delegate_report (checked : Bool) (ec : error_code) (unconfirmed : index_list)
    (tx_entry : transaction_entry_info) (handle_store : store_handler)
    (pool_ : pool_buffer) (r : pool_buffer × List effect)
    (h : handle_delegate checked ec unconfirmed tx_entry handle_store pool_ = some r) :
    ∃ reported indexes, r.2 = call_store handle_store reported indexes ∧
      (ec ≠ error_code.ok → reported = ec) ∧
      (ec = error_code.ok → tx_exists tx_entry.hash pool_ = true →
        reported = error_code.duplicate) ∧
      (ec = error_code.ok → tx_exists tx_entry.hash pool_ = false →
        reported = error_code.ok) := by
  unfold handle_delegate at h
  split at h
  · rename_i hec
    have h2 := BITCOIN_ASSERT_bind _ _ _ _ (BITCOIN_ASSERT_bind _ _ _ _ h)
    simp only [Option.some.injEq] at h2
    refine ⟨ec, unconfirmed, by rw [← h2], fun _ => rfl, ?_, ?_⟩ <;>
      (intro hok; rw [hec] at hok; cases hok)
  · split at h
    · rename_i _ hset
      have h2 := BITCOIN_ASSERT_bind _ _ _ _ h
      simp only [Option.some.injEq] at h2
      have hne : ec ≠ error_code.ok := by simpa [error_code.is_set] using hset
      exact ⟨ec, [], by rw [← h2], fun _ => rfl, fun hok => absurd hok hne,
        fun hok => absurd hok hne⟩
    · rename_i _ hset
      have hok : ec = error_code.ok := by simpa [error_code.is_set] using hset
      split at h
      · rename_i hex
        simp only [Option.some.injEq] at h
        refine ⟨error_code.duplicate, [], by rw [← h], fun hne => absurd hok hne,
          fun _ _ => rfl, ?_⟩
        intro _ hf
        rw [hf] at hex
        cases hex
      · rename_i hex
        simp only [Option.some.injEq] at h
        refine ⟨error_code.ok, unconfirmed, by rw [← h], fun hne => absurd hok hne, ?_,
          fun _ _ => rfl⟩
        intro _ ht
        exact absurd ht hex

theorem nodup_hashes_of_pairwise (entries : List transaction_entry_info)
    (h : entries.Pairwise (fun a b => a.hash ≠ b.hash)) : (hashes entries).Nodup := by
  unfold hashes
  exact List.pairwise_map.2 h

/-! ## The claims -/

/-- C1: starting from the pool of the constructor, after any sequence of pool
operations that runs to its end, no two entries of the pool have equal hash;
and with assertions compiled out every sequence runs to its end. -/
theorem pool_holds_no_two_entries_with_equal_hash (checked : Bool)
    (hash_transaction : transaction → hash_digest) (ops : List pool_op)
    (r : pool_buffer × List effect)
    (hrun : run checked hash_transaction ops construct = some r) :
    r.1.items.Pairwise (fun a b => a.hash ≠ b.hash) ∧
      (run false hash_transaction ops construct).isSome = true := by
  have hinv := run_invariant checked hash_transaction ops construct r
    pool_invariant_construct hrun
  refine ⟨?_, run_unchecked hash_transaction ops construct⟩
  have hnd : (hashes r.1.items).Nodup := hinv.2.2
  unfold hashes at hnd
  exact List.pairwise_map.1 hnd

/-- C1, on an example: a store, the same store again (refused as a duplicate)
and another store leave two entries with different hashes. -/
theorem pool_holds_no_two_entries_with_equal_hash_witness :
    run true sample_hash sample_stores construct = some sample_stores_result ∧
      sample_stores_result.1.items.Pairwise (fun a b => a.hash ≠ b.hash) ∧
      (run false sample_hash sample_stores construct).isSome = true :=
  ⟨by rfl, pool_holds_no_two_entries_with_equal_hash true sample_hash sample_stores
    sample_stores_result (by rfl)⟩

/-- C2: starting from the pool of the constructor (capacity 2000), after any
sequence of pool operations that runs to its end the pool holds at most 2000
entries; and with assertions compiled out every sequence runs to its end. -/
theorem pool_size_at_most_2000 (checked : Bool)
    (hash_transaction : transaction → hash_digest) (ops : List pool_op)
    (r : pool_buffer × List effect)
    (hrun : run checked hash_transaction ops construct = some r) :
    r.1.size ≤ 2000 ∧ (run false hash_transaction ops construct).isSome = true :=
  ⟨(run_invariant checked hash_transaction ops construct r pool_invariant_construct hrun).2.1,
    run_unchecked hash_transaction ops construct⟩

/-- C2, on an example: two stores and a new block with the first transaction. -/
theorem pool_size_at_most_2000_witness :
    run true sample_hash sample_extension construct = some sample_extension_result ∧
      sample_extension_result.1.size ≤ 2000 ∧
      (run false sample_hash sample_extension construct).isSome = true :=
  ⟨by rfl, pool_size_at_most_2000 true sample_hash sample_extension
    sample_extension_result (by rfl)⟩

/-- C3, refuted on an example: the pool holds 2000 entries, the entry with hash
2000 is new and its validation succeeds; `handle_delegate` drops the front
entry from the pool and calls the store handler only, so the confirm handler
of the dropped entry is called with no error code at all. -/
theorem eviction_calls_no_confirm_handler_example :
    full_pool.items.length = 2000 ∧ full_pool.items.head? = some (sample_entry 0) ∧
    tx_exists (sample_entry 2000).hash full_pool = false ∧
    ∃ r, handle_delegate true error_code.ok [] (sample_entry 2000) (store_handler.user 7)
          full_pool = some r ∧
      sample_entry 0 ∉ r.1.items ∧
      r.2 = [effect.handle_store (store_handler.user 7) error_code.ok []] ∧
      ∀ ec, effect.handle_confirm (sample_entry 0).handle_confirm ec ∉ r.2 := by
  refine ⟨full_pool_length, by rw [full_pool_items]; rfl, full_pool_fresh, _,
    handle_delegate_accept true [] (sample_entry 2000) (store_handler.user 7) full_pool
      full_pool_fresh, ?_, by rfl, by simp [call_store]⟩
  show sample_entry 0 ∉ (full_pool.push_back (sample_entry 2000)).items
  rw [circular_buffer.push_back_of_full full_pool _ full_pool_length (by decide),
    full_pool_items]
  simp [sample_entry]

/-- C3, amended: into a pool of capacity 2000 that holds 2000 entries,
`handle_delegate` with a successful validation of an entry whose hash the pool
does not hold drops the front entry and puts the new one at the back; the one
handler it calls is the store handler, with `(ok, unconfirmed)`, and no confirm
handler is called. -/
theorem insert_at_capacity_calls_store_handler_only (checked : Bool)
    (unconfirmed : index_list) (tx_entry : transaction_entry_info)
    (handle_store : store_handler) (pool_ : pool_buffer)
    (hcap : pool_.capacity = 2000) (hfull : pool_.size = 2000)
    (hnew : tx_exists tx_entry.hash pool_ = false) :
    ∃ r, handle_delegate checked error_code.ok unconfirmed tx_entry handle_store pool_
          = some r ∧
      r.1.items = pool_.items.tail ++ [tx_entry] ∧
      r.2 = [effect.handle_store handle_store error_code.ok unconfirmed] ∧
      r.2.filter is_confirm_call = [] := by
  refine ⟨_, handle_delegate_accept checked unconfirmed tx_entry handle_store pool_ hnew,
    ?_, call_store_ok handle_store unconfirmed, ?_⟩
  · exact circular_buffer.push_back_of_full pool_ tx_entry (hfull.trans hcap.symm)
      (by rw [hcap]; decide)
  · show (call_store handle_store error_code.ok unconfirmed).filter is_confirm_call = []
    rw [call_store_ok]
    rfl

/-- C3 as amended, on the pool of 2000 entries with the hashes 0 to 1999 and
the new hash 2000. -/
theorem insert_at_capacity_calls_store_handler_only_witness :
    full_pool.capacity = 2000 ∧ full_pool.size = 2000 ∧
    tx_exists (sample_entry 2000).hash full_pool = false ∧
    ∃ r, handle_delegate true error_code.ok [4] (sample_entry 2000)
          (store_handler.resubmit 3) full_pool = some r ∧
      r.1.items = full_pool.items.tail ++ [sample_entry 2000] ∧
      r.2 = [effect.handle_store (store_handler.resubmit 3) error_code.ok [4]] ∧
      r.2.filter is_confirm_call = [] :=
  ⟨rfl, full_pool_length, full_pool_fresh,
    insert_at_capacity_calls_store_handler_only true [4] (sample_entry 2000)
      (store_handler.resubmit 3) full_pool rfl full_pool_length full_pool_fresh⟩

/-- C4: for a pool of capacity 2000 and an entry that `handle_delegate` accepts
(validation ok, hash not in the pool): when the pool holds exactly 2000
entries, the pool afterwards is the old pool without its first entry, followed
by the new entry; when it holds fewer, the pool afterwards is the old pool
followed by the new entry. -/
theorem accepted_entry_goes_to_the_back (checked : Bool)
    (unconfirmed : index_list) (tx_entry : transaction_entry_info)
    (handle_store : store_handler) (pool_ : pool_buffer)
    (hcap : pool_.capacity = 2000) (hnew : tx_exists tx_entry.hash pool_ = false) :
    ∃ r, handle_delegate checked error_code.ok unconfirmed tx_entry handle_store pool_
          = some r ∧
      r.1.capacity = 2000 ∧
      (pool_.size = 2000 → r.1.items = pool_.items.tail ++ [tx_entry]) ∧
      (pool_.size < 2000 → r.1.items = pool_.items ++ [tx_entry]) := by
  refine ⟨_, handle_delegate_accept checked unconfirmed tx_entry handle_store pool_ hnew,
    hcap, ?_, ?_⟩
  · intro hfull
    exact circular_buffer.push_back_of_full pool_ tx_entry (hfull.trans hcap.symm)
      (by rw [hcap]; decide)
  · intro hlt
    exact circular_buffer.push_back_of_lt pool_ tx_entry (by rw [hcap]; exact hlt)

/-- C4, on the pool of 2000 entries with the hashes 0 to 1999: the entry with
hash 0 leaves, the entry with hash 2000 is the last. -/
theorem accepted_entry_goes_to_the_back_witness :
    full_pool.capacity = 2000 ∧ tx_exists (sample_entry 2000).hash full_pool = false ∧
    full_pool.size = 2000 ∧
    ∃ r, handle_delegate true error_code.ok [] (sample_entry 2000) (store_handler.user 1)
          full_pool = some r ∧
      r.1.capacity = 2000 ∧
      (full_pool.size = 2000 → r.1.items = full_pool.items.tail ++ [sample_entry 2000]) ∧
      (full_pool.size < 2000 → r.1.items = full_pool.items ++ [sample_entry 2000]) :=
  ⟨rfl, full_pool_fresh, full_pool_length,
    accepted_entry_goes_to_the_back true [] (sample_entry 2000) (store_handler.user 1)
      full_pool rfl full_pool_fresh⟩

/-- C5: a failed store changes nothing and reports once.  Whenever the
validation failed (`ec` set) or the pool already holds the hash of the entry,
and the validation result is what the assertions of `handle_delegate` expect
(needed only when assertions are compiled in), `handle_delegate` returns, the
pool is unchanged, and the store handler is called exactly once: with
`(input_not_found, unconfirmed)` when `ec` is `input_not_found`, with
`(ec, [])` for any other error, with `(duplicate, [])` when `ec` is ok. -/
theorem failed_store_keeps_pool_and_reports_once (checked : Bool) (ec : error_code)
    (unconfirmed : index_list) (tx_entry : transaction_entry_info)
    (handle_store : store_handler) (pool_ : pool_buffer)
    (hfail : ec ≠ error_code.ok ∨ tx_exists tx_entry.hash pool_ = true)
    (hassert : checked = true →
      (ec = error_code.input_not_found →
        unconfirmed.length = 1 ∧ unconfirmed.headD 0 < tx_entry.tx.inputs.length) ∧
      (ec ≠ error_code.input_not_found → ec ≠ error_code.ok → unconfirmed = [])) :
    ∃ r, handle_delegate checked ec unconfirmed tx_entry handle_store pool_ = some r ∧
      r.1 = pool_ ∧
      (ec = error_code.input_not_found →
        r.2.filter is_store_call
          = [effect.handle_store handle_store error_code.input_not_found unconfirmed]) ∧
      (ec ≠ error_code.input_not_found → ec ≠ error_code.ok →
        r.2.filter is_store_call = [effect.handle_store handle_store ec []]) ∧
      (ec = error_code.ok →
        r.2.filter is_store_call
          = [effect.handle_store handle_store error_code.duplicate []]) := by
  by_cases h1 : ec = error_code.input_not_found
  · subst h1
    refine ⟨_, handle_delegate_input_not_found checked unconfirmed tx_entry handle_store pool_
      (fun hc => (hassert hc).1 rfl), rfl, fun _ => store_calls_call_store _ _ _,
      fun h => absurd rfl h, fun h => absurd h (by decide)⟩
  · by_cases h2 : ec = error_code.ok
    · subst h2
      have hdup : tx_exists tx_entry.hash pool_ = true := by
        rcases hfail with h | h
        · exact absurd rfl h
        · exact h
      exact ⟨_, handle_delegate_duplicate checked unconfirmed tx_entry handle_store pool_ hdup,
        rfl, fun h => absurd h (by decide), fun _ h => absurd rfl h,
        fun _ => store_calls_call_store _ _ _⟩
    · exact ⟨_, handle_delegate_other_error checked ec unconfirmed tx_entry handle_store pool_
        h1 h2 (fun hc => (hassert hc).2 h1 h2), rfl, fun h => absurd h h1,
        fun _ _ => store_calls_call_store _ _ _, fun h => absurd h h2⟩

/-- C5, on an example with assertions compiled in: the validation of an entry
reports `input_not_found` with the index list `[0]`. -/
theorem failed_store_keeps_pool_and_reports_once_witness :
    ∃ r, handle_delegate true error_code.input_not_found [0] (sample_entry 5)
          (store_handler.user 1) sample_pool = some r ∧
      r.1 = sample_pool ∧
      (error_code.input_not_found = error_code.input_not_found →
        r.2.filter is_store_call
          = [effect.handle_store (store_handler.user 1) error_code.input_not_found [0]]) ∧
      (error_code.input_not_found ≠ error_code.input_not_found →
        error_code.input_not_found ≠ error_code.ok →
        r.2.filter is_store_call
          = [effect.handle_store (store_handler.user 1) error_code.input_not_found []]) ∧
      (error_code.input_not_found = error_code.ok →
        r.2.filter is_store_call
          = [effect.handle_store (store_handler.user 1) error_code.duplicate []]) :=
  failed_store_keeps_pool_and_reports_once true error_code.input_not_found [0]
    (sample_entry 5) (store_handler.user 1) sample_pool (Or.inl (by decide))
    (fun _ => ⟨fun _ => ⟨rfl, by decide⟩, fun h => absurd rfl h⟩)

/-- C6: for a pool (of capacity 2000) that holds no entry with the hash of
`tx`, and a validation result `(ok, unconfirmed)`: `do_store` builds the entry
`{hash(tx), tx, handle_confirm}`, `handle_delegate` returns with that entry as
the last of the pool, behind the old entries (less the front one when the pool
was full), and its effects are exactly one call of the store handler with
`(ok, unconfirmed)`: no confirm handler is called. -/
theorem successful_store_appends_and_reports_ok (checked : Bool)
    (hash_transaction : transaction → hash_digest) (tx : transaction)
    (handle_confirm : confirm_handler) (handle_store : store_handler)
    (unconfirmed : index_list) (pool_ : pool_buffer)
    (hcap : pool_.capacity = 2000)
    (hnew : tx_exists (hash_transaction tx) pool_ = false) :
    do_store hash_transaction tx handle_confirm handle_store
        = [effect.validate_start ⟨hash_transaction tx, tx, handle_confirm⟩ handle_store] ∧
    ∃ r, handle_delegate checked error_code.ok unconfirmed
          ⟨hash_transaction tx, tx, handle_confirm⟩ handle_store pool_ = some r ∧
      r.1.items.getLast? = some ⟨hash_transaction tx, tx, handle_confirm⟩ ∧
      r.1.items = pool_.items.drop (pool_.size + 1 - 2000)
                    ++ [⟨hash_transaction tx, tx, handle_confirm⟩] ∧
      r.2 = [effect.handle_store handle_store error_code.ok unconfirmed] ∧
      r.2.filter is_confirm_call = [] := by
  have hitems : (pool_.push_back ⟨hash_transaction tx, tx, handle_confirm⟩).items
      = pool_.items.drop (pool_.size + 1 - 2000)
          ++ [⟨hash_transaction tx, tx, handle_confirm⟩] := by
    rw [circular_buffer.push_back_items, hcap]
    unfold circular_buffer.size
    rw [List.drop_append_of_le_length (by omega)]
  refine ⟨rfl, _, handle_delegate_accept checked unconfirmed _ handle_store pool_ hnew,
    ?_, hitems, call_store_ok handle_store unconfirmed, ?_⟩
  · rw [hitems]
    simp
  · show (call_store handle_store error_code.ok unconfirmed).filter is_confirm_call = []
    rw [call_store_ok]
    rfl

/-- C6, on an example: a transaction with hash 9 stored into the pool with the
hashes 1, 2 and 3. -/
theorem successful_store_appends_and_reports_ok_witness :
    sample_pool.capacity = 2000 ∧
    tx_exists (sample_hash (sample_entry 9).tx) sample_pool = false ∧
    ∃ r, handle_delegate true error_code.ok [0] (sample_entry 9) (store_handler.user 4)
          sample_pool = some r ∧
      r.1.items = [sample_entry 1, sample_entry 2, sample_entry 3, sample_entry 9] ∧
      r.2 = [effect.handle_store (store_handler.user 4) error_code.ok [0]] :=
  ⟨rfl, by decide,
    (successful_store_appends_and_reports_ok true sample_hash (sample_entry 9).tx 9
      (store_handler.user 4) [0] sample_pool rfl (by decide)).2.imp
      (fun _ h => ⟨h.1, h.2.2.1, h.2.2.2.1⟩)⟩

/-- C7: for every pool without two entries of equal hash and every list of new
blocks, after `reorganize` with no replaced block no entry of the pool has the
hash of a transaction of a new block. -/
theorem takeout_removes_every_confirmed_transaction
    (hash_transaction : transaction → hash_digest) (ec : error_code) (fork_point : Nat)
    (new_blocks : List block) (pool_ : pool_buffer)
    (hnd : pool_.items.Pairwise (fun a b => a.hash ≠ b.hash)) :
    ∀ entry ∈ (reorganize hash_transaction ec fork_point new_blocks [] pool_).1.items,
      ∀ new_block ∈ new_blocks, ∀ new_tx ∈ new_block.transactions,
        entry.hash ≠ hash_transaction new_tx := by
  intro entry hmem new_block hb new_tx htx heq
  have hitems : (reorganize hash_transaction ec fork_point new_blocks [] pool_).1.items
      = (delete_each (confirmed_hashes hash_transaction new_blocks) pool_).1.items := by
    simp [reorganize, takeout_confirmed_eq]
  rw [hitems, (delete_each_nodup _ pool_ (nodup_hashes_of_pairwise _ hnd)).1,
    List.mem_filter] at hmem
  have hnot : entry.hash ∉ confirmed_hashes hash_transaction new_blocks := by
    simpa using hmem.2
  exact hnot ((mem_confirmed_hashes hash_transaction new_blocks entry.hash).2
    ⟨new_block, hb, new_tx, htx, heq.symm⟩)

/-- C7, on an example: the pool with the hashes 1, 2 and 3, and a new block
with the transaction of hash 2. -/
theorem takeout_removes_every_confirmed_transaction_witness :
    sample_pool.items.Pairwise (fun a b => a.hash ≠ b.hash) ∧
    (reorganize sample_hash error_code.ok 7 [sample_block] [] sample_pool).1.items
      = [sample_entry 1, sample_entry 3] ∧
    ∀ entry ∈ (reorganize sample_hash error_code.ok 7 [sample_block] [] sample_pool).1.items,
      ∀ new_block ∈ [sample_block], ∀ new_tx ∈ new_block.transactions,
        entry.hash ≠ sample_hash new_tx :=
  ⟨by decide, by rfl,
    takeout_removes_every_confirmed_transaction sample_hash error_code.ok 7 [sample_block]
      sample_pool (by decide)⟩

/-- C8: for every pool without two entries of equal hash and every list of new
blocks, `takeout_confirmed` leaves exactly the entries whose hash is not the
hash of a transaction of a new block, in their order; the handlers it calls
are the confirm handlers of the other entries, each once and with the default
error code, and nothing else; the capacity stays. -/
theorem takeout_touches_only_confirmed_entries
    (hash_transaction : transaction → hash_digest) (new_blocks : List block)
    (pool_ : pool_buffer)
    (hnd : pool_.items.Pairwise (fun a b => a.hash ≠ b.hash)) :
    (∀ tx_hash, tx_hash ∈ confirmed_hashes hash_transaction new_blocks ↔
      ∃ new_block ∈ new_blocks, ∃ new_tx ∈ new_block.transactions,
        hash_transaction new_tx = tx_hash) ∧
    (takeout_confirmed hash_transaction new_blocks pool_).1.capacity = pool_.capacity ∧
    (takeout_confirmed hash_transaction new_blocks pool_).1.items
      = pool_.items.filter
          (fun entry => decide (entry.hash ∉ confirmed_hashes hash_transaction new_blocks)) ∧
    (takeout_confirmed hash_transaction new_blocks pool_).2.Perm
      ((pool_.items.filter
          (fun entry => decide (entry.hash ∈ confirmed_hashes hash_transaction new_blocks))).map
        (fun entry => effect.handle_confirm entry.handle_confirm error_code.ok)) := by
  have h := delete_each_nodup (confirmed_hashes hash_transaction new_blocks) pool_
    (nodup_hashes_of_pairwise _ hnd)
  rw [takeout_confirmed_eq]
  exact ⟨mem_confirmed_hashes hash_transaction new_blocks, delete_each_capacity _ _, h.1, h.2⟩

/-- C8, on the example of the spec: the pool holds A, B and C (hashes 1, 2, 3),
the new block holds B; the pool becomes A, C and the one handler called is
that of B, with the default error code. -/
theorem takeout_touches_only_confirmed_entries_witness :
    sample_pool.items.Pairwise (fun a b => a.hash ≠ b.hash) ∧
    takeout_confirmed sample_hash [sample_block] sample_pool
      = (⟨2000, [sample_entry 1, sample_entry 3]⟩,
          [effect.handle_confirm (sample_entry 2).handle_confirm error_code.ok]) ∧
    (takeout_confirmed sample_hash [sample_block] sample_pool).1.items
      = sample_pool.items.filter
          (fun entry => decide (entry.hash ∉ confirmed_hashes sample_hash [sample_block])) :=
  ⟨by decide, by rfl,
    (takeout_touches_only_confirmed_entries sample_hash [sample_block] sample_pool
      (by decide)).2.2.1⟩

/-- C9: for every pool and every non-empty list of replaced blocks,
`reorganize` leaves the pool empty (capacity unchanged) and its effects are:
one `store` per former entry, front to back, with the transaction of the entry,
its confirm handler, and `handle_resubmit` bound to that same confirm handler;
then the renewed subscription.  No confirm handler is called, and the new
blocks are not looked at. -/
theorem reorganize_with_replaced_blocks_resubmits_all
    (hash_transaction : transaction → hash_digest) (ec : error_code) (fork_point : Nat)
    (new_blocks replaced_blocks : List block) (pool_ : pool_buffer)
    (hne : replaced_blocks ≠ []) :
    (reorganize hash_transaction ec fork_point new_blocks replaced_blocks pool_).1
      = ⟨pool_.capacity, []⟩ ∧
    (reorganize hash_transaction ec fork_point new_blocks replaced_blocks pool_).2
      = pool_.items.map (fun entry =>
          effect.post_store entry.tx entry.handle_confirm
            (store_handler.resubmit entry.handle_confirm))
        ++ [effect.subscribe_reorganize] ∧
    (reorganize hash_transaction ec fork_point new_blocks replaced_blocks pool_).2.filter
      is_confirm_call = [] := by
  have hcond : (!replaced_blocks.isEmpty) = true := by
    cases replaced_blocks with
    | nil => exact absurd rfl hne
    | cons b bs => rfl
  have heff : (reorganize hash_transaction ec fork_point new_blocks replaced_blocks pool_).2
      = pool_.items.map (fun entry =>
          effect.post_store entry.tx entry.handle_confirm
            (store_handler.resubmit entry.handle_confirm))
        ++ [effect.subscribe_reorganize] := by
    simp only [reorganize, hcond, if_true, resubmit_all, resubmit_loop_eq]
  refine ⟨?_, heff, ?_⟩
  · simp only [reorganize, hcond, if_true, resubmit_all, circular_buffer.clear]
  · rw [heff, List.filter_append, List.filter_map]
    simp [Function.comp_def, is_confirm_call]

/-- C9, on an example: the pool with the hashes 1, 2 and 3, one replaced block. -/
theorem reorganize_with_replaced_blocks_resubmits_all_witness :
    [sample_block] ≠ [] ∧
    reorganize sample_hash error_code.ok 7 [sample_block] [sample_block] sample_pool
      = (⟨2000, []⟩,
          [effect.post_store (sample_entry 1).tx 1 (store_handler.resubmit 1),
           effect.post_store (sample_entry 2).tx 2 (store_handler.resubmit 2),
           effect.post_store (sample_entry 3).tx 3 (store_handler.resubmit 3),
           effect.subscribe_reorganize]) ∧
    (reorganize sample_hash error_code.ok 7 [sample_block] [sample_block] sample_pool).2.filter
      is_confirm_call = [] :=
  ⟨by decide, by rfl,
    (reorganize_with_replaced_blocks_resubmits_all sample_hash error_code.ok 7 [sample_block]
      [sample_block] sample_pool (by decide)).2.2⟩

/-- C10: for every entry of a pool that `resubmit_all` resubmits, the store it
posts carries `handle_resubmit` bound to the confirm handler of the entry; when
that store handler is called with a set error code `ec` (whatever the index
list) the confirm handler of the entry is called once, with `ec`, and when it
is called with the default code nothing else is called.  The `handle_delegate`
of the resubmission, whenever it returns, calls that store handler once, with
the error of the validation, with `duplicate`, or with the default code. -/
theorem resubmission_failure_reaches_the_owner
    (hash_transaction : transaction → hash_digest) (pool_ : pool_buffer)
    (entry : transaction_entry_info) (hmem : entry ∈ pool_.items)
    (ec : error_code) (indexes : index_list) :
    effect.post_store entry.tx entry.handle_confirm
        (store_handler.resubmit entry.handle_confirm) ∈ (resubmit_all pool_).2 ∧
    (ec ≠ error_code.ok →
      call_store (store_handler.resubmit entry.handle_confirm) ec indexes
        = [effect.handle_store (store_handler.resubmit entry.handle_confirm) ec indexes,
           effect.handle_confirm entry.handle_confirm ec]) ∧
    call_store (store_handler.resubmit entry.handle_confirm) error_code.ok indexes
      = [effect.handle_store (store_handler.resubmit entry.handle_confirm)
          error_code.ok indexes] ∧
    handle_resubmit ec entry.handle_confirm
      = (if ec = error_code.ok then []
         else [effect.handle_confirm entry.handle_confirm ec]) ∧
    ∀ (checked : Bool) (validation : error_code) (unconfirmed : index_list)
      (later : pool_buffer) (r : pool_buffer × List effect),
      handle_delegate checked validation unconfirmed
          ⟨hash_transaction entry.tx, entry.tx, entry.handle_confirm⟩
          (store_handler.resubmit entry.handle_confirm) later = some r →
      ∃ reported reported_indexes,
        r.2 = call_store (store_handler.resubmit entry.handle_confirm)
                reported reported_indexes ∧
        (validation ≠ error_code.ok → reported = validation) ∧
        (validation = error_code.ok →
          tx_exists (hash_transaction entry.tx) later = true →
          reported = error_code.duplicate) ∧
        (validation = error_code.ok →
          tx_exists (hash_transaction entry.tx) later = false →
          reported = error_code.ok) := by
  refine ⟨?_, call_store_resubmit_error _ ec indexes, call_store_ok _ indexes, ?_, ?_⟩
  · simp only [resubmit_all, resubmit_loop_eq]
    exact List.mem_map_of_mem _ hmem
  · by_cases h : ec = error_code.ok <;> simp [handle_resubmit, error_code.is_set, h]
  · intro checked validation unconfirmed later r hr
    exact handle_delegate_report checked validation unconfirmed _ _ later r hr

/-- C10, on the example of the spec: the pool holds A and B; the revalidation
of A fails with an error, and the confirm handler of A is called with it. -/
theorem resubmission_failure_reaches_the_owner_witness :
    sample_entry 1 ∈ sample_pool.items ∧
    handle_delegate true (error_code.other 5) [] (sample_entry 1)
        (store_handler.resubmit 1) construct
      = some (construct,
          [effect.handle_store (store_handler.resubmit 1) (error_code.other 5) [],
           effect.handle_confirm 1 (error_code.other 5)]) ∧
    call_store (store_handler.resubmit (sample_entry 1).handle_confirm)
        (error_code.other 5) []
      = [effect.handle_store (store_handler.resubmit (sample_entry 1).handle_confirm)
          (error_code.other 5) [],
         effect.handle_confirm (sample_entry 1).handle_confirm (error_code.other 5)] :=
  ⟨by decide, by rfl,
    (resubmission_failure_reaches_the_owner sample_hash sample_pool (sample_entry 1)
      (by decide) (error_code.other 5) []).2.1 (by decide)⟩

end transaction_pool

/-! ## More lemmas on the pool -/

namespace transaction_pool

theorem fetch_loop_eq (transaction_hash : hash_digest) (handle_fetch : Nat)
    (entries : List transaction_entry_info) :
    fetch_loop transaction_hash handle_fetch entries =
      match entries.find? (fun entry => decide (entry.hash = transaction_hash)) with
      | some entry => [effect.handle_fetch handle_fetch error_code.ok entry.tx]
      | none => [effect.handle_fetch handle_fetch error_code.not_found ⟨0, 0, [], []⟩] := by
  induction entries with
  | nil => rfl
  | cons entry rest ih =>
    unfold fetch_loop
    by_cases h : entry.hash = transaction_hash
    · simp [h]
    · simp only [h, if_false, ih]
      simp [List.find?_cons, h]

theorem tx_exists_loop_eq (tx_hash : hash_digest) (entries : List transaction_entry_info) :
    tx_exists_loop tx_hash entries
      = (entries.find? (fun entry => decide (entry.hash = tx_hash))).isSome := by
  induction entries with
  | nil => rfl
  | cons entry rest ih =>
    unfold tx_exists_loop
    by_cases h : entry.hash = tx_hash
    · simp [h]
    · simp only [h, if_false, ih]
      simp [List.find?_cons, h]

/-- In a pool of capacity 2000 `push_back` keeps the new entry, behind the old
entries less those that the capacity displaces. -/
theorem push_back_items_2000 (pool_ : pool_buffer) (tx_entry : transaction_entry_info)
    (hcap : pool_.capacity = 2000) :
    (pool_.push_back tx_entry).items
      = pool_.items.drop (pool_.size + 1 - 2000) ++ [tx_entry] := by
  rw [circular_buffer.push_back_items, hcap]
  unfold circular_buffer.size
  rw [List.drop_append_of_le_length (by omega)]

/-- The first entry with a hash, among entries without the hash followed by one
with it, is that last one. -/
theorem find_hash_append (tx_hash : hash_digest) (entries : List transaction_entry_info)
    (tx_entry : transaction_entry_info) (hnot : tx_hash ∉ hashes entries)
    (hhash : tx_entry.hash = tx_hash) :
    (entries ++ [tx_entry]).find? (fun entry => decide (entry.hash = tx_hash))
      = some tx_entry := by
  induction entries with
  | nil => simp [hhash]
  | cons entry rest ih =>
    have hne : ¬ entry.hash = tx_hash := by
      intro h
      apply hnot
      simp [hashes, h.symm]
    have hrest : tx_hash ∉ hashes rest := by
      intro h
      apply hnot
      simp only [hashes, List.map_cons, List.mem_cons]
      exact Or.inr h
    simp only [List.cons_append, List.find?_cons, hne, decide_False]
    exact ih hrest

theorem not_mem_hashes_drop (tx_hash : hash_digest) (entries : List transaction_entry_info)
    (k : Nat) (hnot : tx_hash ∉ hashes entries) : tx_hash ∉ hashes (entries.drop k) :=
  fun h => hnot ((hashes_sublist (List.drop_sublist k entries)).subset h)

end transaction_pool

/-! ## More claims on the pool -/

namespace transaction_pool

/-- C11: for every pool and hash, `fetch` calls its handler exactly once: with
`(ok, tx)` of the first entry that has the hash when there is one, and with
`(not_found, empty transaction)` otherwise; `exists` calls its handler once,
with true exactly when an entry has the hash, which is exactly when `fetch`
reports ok; and both leave the pool as it is. -/
theorem fetch_and_exists_agree_with_membership (checked : Bool)
    (hash_transaction : transaction → hash_digest) (transaction_hash : hash_digest)
    (handle_fetch handle_exists : Nat) (pool_ : pool_buffer) :
    (fetch transaction_hash handle_fetch pool_ =
      match pool_.items.find? (fun entry => decide (entry.hash = transaction_hash)) with
      | some entry => [effect.handle_fetch handle_fetch error_code.ok entry.tx]
      | none => [effect.handle_fetch handle_fetch error_code.not_found ⟨0, 0, [], []⟩]) ∧
    exists_ transaction_hash handle_exists pool_
      = [effect.handle_exists handle_exists
          (pool_.items.find? (fun entry => decide (entry.hash = transaction_hash))).isSome] ∧
    (exists_ transaction_hash handle_exists pool_
        = [effect.handle_exists handle_exists true] ↔
      ∃ tx, fetch transaction_hash handle_fetch pool_
        = [effect.handle_fetch handle_fetch error_code.ok tx]) ∧
    step checked hash_transaction (pool_op.fetch transaction_hash handle_fetch) pool_
      = some (pool_, fetch transaction_hash handle_fetch pool_) ∧
    step checked hash_transaction (pool_op.exists_ transaction_hash handle_exists) pool_
      = some (pool_, exists_ transaction_hash handle_exists pool_) := by
  have hf := fetch_loop_eq transaction_hash handle_fetch pool_.items
  have he := tx_exists_loop_eq transaction_hash pool_.items
  refine ⟨hf, ?_, ?_, rfl, rfl⟩
  · simp only [exists_, tx_exists, he]
  · simp only [exists_, tx_exists, fetch, he, hf]
    cases pool_.items.find? (fun entry => decide (entry.hash = transaction_hash)) with
    | none => simp
    | some entry => simp

end transaction_pool

/-! ## Lemmas on the poller -/

namespace poller

theorem receive_inv_loop_eq (last_block_hash_ : hash_digest)
    (entries getdata : List inventory_vector) :
    receive_inv_loop last_block_hash_ entries getdata
      = getdata ++ wanted_blocks last_block_hash_ entries := by
  induction entries generalizing getdata with
  | nil => simp [receive_inv_loop, wanted_blocks]
  | cons ivv rest ih =>
    unfold receive_inv_loop
    by_cases h1 : ivv.type = inventory_type.block
    · by_cases h2 : ivv.hash = last_block_hash_
      · simp [h1, h2, ih, wanted_blocks]
      · simp [h1, h2, ih, wanted_blocks]
    · simp [h1, ih, wanted_blocks]

theorem receive_inv_loop_nil (last_block_hash_ : hash_digest)
    (entries : List inventory_vector) :
    receive_inv_loop last_block_hash_ entries []
      = wanted_blocks last_block_hash_ entries := by
  rw [receive_inv_loop_eq, List.nil_append]

theorem mem_wanted_blocks (last_block_hash_ : hash_digest) (entries : List inventory_vector)
    (ivv : inventory_vector) :
    ivv ∈ wanted_blocks last_block_hash_ entries ↔
      ivv ∈ entries ∧ ivv.type = inventory_type.block ∧ ivv.hash ≠ last_block_hash_ := by
  simp [wanted_blocks, List.mem_filter]

/-- `receive_inv` without an error, in terms of the wanted blocks. -/
theorem receive_inv_ok (packet : inventory) (s : poller_state) :
    receive_inv error_code.ok packet s =
      if h : wanted_blocks s.last_block_hash_ packet.inventories ≠ [] then
        (⟨((wanted_blocks s.last_block_hash_ packet.inventories).getLast h).hash,
            s.last_hash_end_⟩,
          [poller_effect.send_get_data
              ⟨wanted_blocks s.last_block_hash_ packet.inventories⟩,
            poller_effect.subscribe_inventory])
      else (s, [poller_effect.subscribe_inventory]) := by
  simp only [receive_inv, receive_inv_loop_nil]
  by_cases h : wanted_blocks s.last_block_hash_ packet.inventories ≠ []
  · simp [error_code.is_set, h]
  · simp [error_code.is_set, h]

theorem receive_inv_of_none (packet : inventory) (s : poller_state)
    (h : wanted_blocks s.last_block_hash_ packet.inventories = []) :
    receive_inv error_code.ok packet s = (s, [poller_effect.subscribe_inventory]) := by
  rw [receive_inv_ok, dif_neg (by simp [h])]

theorem receive_inv_of_some (packet : inventory) (s : poller_state)
    (h : wanted_blocks s.last_block_hash_ packet.inventories ≠ []) :
    receive_inv error_code.ok packet s =
      (⟨((wanted_blocks s.last_block_hash_ packet.inventories).getLast h).hash,
          s.last_hash_end_⟩,
        [poller_effect.send_get_data ⟨wanted_blocks s.last_block_hash_ packet.inventories⟩,
          poller_effect.subscribe_inventory]) := by
  rw [receive_inv_ok, dif_pos h]

/-- `receive_inv` sends no `get_blocks` and keeps `last_hash_end_`. -/
theorem receive_inv_fronts (ec : error_code) (packet : inventory) (s : poller_state) :
    sent_fronts (receive_inv ec packet s).2 = [] ∧
      (receive_inv ec packet s).1.last_hash_end_ = s.last_hash_end_ := by
  cases ec with
  | ok =>
    by_cases h : wanted_blocks s.last_block_hash_ packet.inventories ≠ []
    · rw [receive_inv_of_some packet s h]
      exact ⟨rfl, rfl⟩
    · rw [receive_inv_of_none packet s (by simpa using h)]
      exact ⟨rfl, rfl⟩
  | input_not_found => exact ⟨rfl, rfl⟩
  | duplicate => exact ⟨rfl, rfl⟩
  | not_found => exact ⟨rfl, rfl⟩
  | other value => exact ⟨rfl, rfl⟩

theorem ask_blocks_ok_cons (front : hash_digest) (rest : block_locator)
    (hash_stop : hash_digest) (s : poller_state) :
    ask_blocks error_code.ok (front :: rest) hash_stop s =
      if s.last_hash_end_ = front then some (s, [poller_effect.log_debug])
      else some (⟨s.last_block_hash_, front⟩,
        [poller_effect.send_get_blocks ⟨front :: rest, hash_stop⟩]) := by
  simp [ask_blocks, error_code.is_set]

/-- What `ask_blocks` does when it returns: it sends no `get_blocks` and keeps
`last_hash_end_`, or it sends one whose locator front differs from
`last_hash_end_` and stores that front there. -/
theorem ask_blocks_fronts (ec : error_code) (locator : block_locator)
    (hash_stop : hash_digest) (s : poller_state) (r : poller_state × List poller_effect)
    (h : ask_blocks ec locator hash_stop s = some r) :
    (sent_fronts r.2 = [] ∧ r.1.last_hash_end_ = s.last_hash_end_) ∨
      ∃ front, sent_fronts r.2 = [front] ∧ s.last_hash_end_ ≠ front ∧
        r.1.last_hash_end_ = front := by
  unfold ask_blocks at h
  split at h
  · simp only [Option.some.injEq] at h
    left
    rw [← h]
    exact ⟨rfl, rfl⟩
  · cases locator with
    | nil => simp at h
    | cons front rest =>
      simp only [List.head?_cons] at h
      split at h
      · simp only [Option.some.injEq] at h
        left
        rw [← h]
        exact ⟨rfl, rfl⟩
      · rename_i hne
        simp only [Option.some.injEq] at h
        right
        refine ⟨front, ?_, hne, ?_⟩
        · rw [← h]
          rfl
        · rw [← h]

/-- What one handler does when it returns, as far as `get_blocks` messages and
`last_hash_end_` go. -/
theorem step_fronts (hash_block_header : block → hash_digest) (ev : event)
    (s : poller_state) (r : poller_state × List poller_effect)
    (h : step hash_block_header ev s = some r) :
    (sent_fronts r.2 = [] ∧ r.1.last_hash_end_ = s.last_hash_end_) ∨
      ∃ front, sent_fronts r.2 = [front] ∧ s.last_hash_end_ ≠ front ∧
        r.1.last_hash_end_ = front := by
  cases ev with
  | query =>
    simp only [step, Option.some.injEq] at h
    left; rw [← h]; exact ⟨rfl, rfl⟩
  | monitor =>
    simp only [step, Option.some.injEq] at h
    left; rw [← h]; exact ⟨rfl, rfl⟩
  | initial_ask_blocks ec locator =>
    simp only [step, Option.some.injEq] at h
    left; rw [← h]
    unfold initial_ask_blocks
    split <;> exact ⟨rfl, rfl⟩
  | ask_blocks ec locator hash_stop =>
    exact ask_blocks_fronts ec locator hash_stop s r h
  | receive_inv ec packet =>
    simp only [step, Option.some.injEq] at h
    left; rw [← h]
    exact receive_inv_fronts ec packet s
  | receive_block ec blk =>
    simp only [step, Option.some.injEq] at h
    left; rw [← h]
    unfold receive_block
    split <;> exact ⟨rfl, rfl⟩
  | handle_store ec info block_hash =>
    simp only [step, Option.some.injEq] at h
    left; rw [← h]
    unfold handle_store
    split
    · exact ⟨rfl, rfl⟩
    · split <;> exact ⟨rfl, rfl⟩

theorem sent_fronts_append (l₁ l₂ : List poller_effect) :
    sent_fronts (l₁ ++ l₂) = sent_fronts l₁ ++ sent_fronts l₂ := by
  induction l₁ with
  | nil => rfl
  | cons e rest ih =>
    cases e with
    | send_get_blocks packet =>
      simp only [List.cons_append, sent_fronts]
      cases packet.start_hashes.head? with
      | none => simpa using ih
      | some front => simp [ih]
    | send_get_data packet => simpa [sent_fronts] using ih
    | subscribe_inventory => simpa [sent_fronts] using ih
    | subscribe_block => simpa [sent_fronts] using ih
    | chain_store blk block_hash => simpa [sent_fronts] using ih
    | fetch_block_locator completion => simpa [sent_fronts] using ih
    | dispatch_ask_blocks ec locator hash_stop => simpa [sent_fronts] using ih
    | log_error => simpa [sent_fronts] using ih
    | log_info => simpa [sent_fronts] using ih
    | log_debug => simpa [sent_fronts] using ih

/-- Along an execution every `get_blocks` message has a locator front that
differs from the one before it, and the first from `last_hash_end_` at the
start. -/
theorem run_fronts_chain (hash_block_header : block → hash_digest) (events : List event)
    (s : poller_state) (r : poller_state × List poller_effect)
    (h : run hash_block_header events s = some r) :
    List.Chain (fun a b => a ≠ b) s.last_hash_end_ (sent_fronts r.2) := by
  induction events generalizing s r with
  | nil =>
    simp only [run, Option.some.injEq] at h
    rw [← h]
    exact List.Chain.nil
  | cons ev rest ih =>
    simp only [run] at h
    cases hs : step hash_block_header ev s with
    | none => simp [hs] at h
    | some r1 =>
      cases hr : run hash_block_header rest r1.1 with
      | none => simp [hs, hr] at h
      | some r2 =>
        simp only [hs, hr, Option.some.injEq] at h
        rw [← h]
        show List.Chain _ _ (sent_fronts (r1.2 ++ r2.2))
        rw [sent_fronts_append]
        have hrest := ih r1.1 r2 hr
        rcases step_fronts hash_block_header ev s r1 hs with ⟨h1, h2⟩ | ⟨front, h1, h2, h3⟩
        · rw [h1, List.nil_append, ← h2]
          exact hrest
        · rw [h1, List.singleton_append]
          rw [h3] at hrest
          exact List.Chain.cons h2 hrest

theorem chain_adjacent (a : hash_digest) (l : List hash_digest)
    (h : List.Chain (fun a b => a ≠ b) a l) (before : List hash_digest)
    (x y : hash_digest) (after : List hash_digest)
    (hl : l = before ++ x :: y :: after) : x ≠ y := by
  induction before generalizing a l with
  | nil =>
    subst hl
    simp only [List.nil_append, List.chain_cons] at h
    exact h.2.1
  | cons b rest ih =>
    subst hl
    simp only [List.cons_append, List.chain_cons] at h
    exact ih b _ h.2 rfl

/-- An execution with no `ask_blocks` on an empty locator runs to its end. -/
theorem run_total (hash_block_header : block → hash_digest) (events : List event)
    (s : poller_state) (hall : ∀ ev ∈ events, asks_with_empty_locator ev = false) :
    (run hash_block_header events s).isSome = true := by
  induction events generalizing s with
  | nil => rfl
  | cons ev rest ih =>
    have hstep : (step hash_block_header ev s).isSome = true := by
      have hev := hall ev (List.mem_cons_self _ _)
      cases ev with
      | ask_blocks ec locator hash_stop =>
        simp only [step, ask_blocks]
        split
        · rfl
        · rename_i hset
          cases locator with
          | nil => simp [asks_with_empty_locator, hset] at hev
          | cons front tail =>
            simp only [List.head?_cons]
            split <;> rfl
      | query => rfl
      | monitor => rfl
      | initial_ask_blocks ec locator => rfl
      | receive_inv ec packet => rfl
      | receive_block ec blk => rfl
      | handle_store ec info block_hash => rfl
    simp only [run]
    cases hs : step hash_block_header ev s with
    | none => simp [hs] at hstep
    | some r1 =>
      have hrest := ih r1.1 (fun e he => hall e (List.mem_cons_of_mem _ he))
      cases hr : run hash_block_header rest r1.1 with
      | none => simp [hr] at hrest
      | some r2 => simp [hr]

theorem eq_ok_of_not_set (ec : error_code) (h : ec.is_set = false) : ec = error_code.ok := by
  simpa [error_code.is_set] using h

/-! ## Claims on the poller -/

/-- C12: for every state of the poller and every inventory that comes without
an error, the list `receive_inv` builds is the entries of the inventory of
kind block whose hash differs from `last_block_hash_` as it was on arrival, in
their order; when it is empty no `get_data` is sent and the members stay; when
it is not, exactly that list is sent as one `get_data` and `last_block_hash_`
becomes the hash of its last entry. -/
theorem receive_inv_requests_the_wanted_blocks (ec : error_code) (packet : inventory)
    (s : poller_state) (hec : ec.is_set = false) :
    receive_inv_loop s.last_block_hash_ packet.inventories []
      = packet.inventories.filter (fun ivv =>
          decide (ivv.type = inventory_type.block)
            && decide (ivv.hash ≠ s.last_block_hash_)) ∧
    wanted_blocks s.last_block_hash_ packet.inventories
      = receive_inv_loop s.last_block_hash_ packet.inventories [] ∧
    (wanted_blocks s.last_block_hash_ packet.inventories).Sublist packet.inventories ∧
    (∀ ivv, ivv ∈ wanted_blocks s.last_block_hash_ packet.inventories ↔
      ivv ∈ packet.inventories ∧ ivv.type = inventory_type.block ∧
        ivv.hash ≠ s.last_block_hash_) ∧
    (wanted_blocks s.last_block_hash_ packet.inventories = [] →
      receive_inv ec packet s = (s, [poller_effect.subscribe_inventory])) ∧
    (∀ h : wanted_blocks s.last_block_hash_ packet.inventories ≠ [],
      receive_inv ec packet s =
        (⟨((wanted_blocks s.last_block_hash_ packet.inventories).getLast h).hash,
            s.last_hash_end_⟩,
          [poller_effect.send_get_data
              ⟨wanted_blocks s.last_block_hash_ packet.inventories⟩,
            poller_effect.subscribe_inventory])) ∧
    ((∃ sent, poller_effect.send_get_data sent ∈ (receive_inv ec packet s).2) ↔
      wanted_blocks s.last_block_hash_ packet.inventories ≠ []) := by
  have hok := eq_ok_of_not_set ec hec
  subst hok
  refine ⟨receive_inv_loop_nil _ _, (receive_inv_loop_nil _ _).symm, List.filter_sublist _,
    mem_wanted_blocks _ _, receive_inv_of_none packet s, receive_inv_of_some packet s, ?_⟩
  by_cases h : wanted_blocks s.last_block_hash_ packet.inventories ≠ []
  · rw [receive_inv_of_some packet s h]
    simp [h]
  · rw [receive_inv_of_none packet s (by simpa using h)]
    simp [h]

/-- C12, on the cold sync of the spec: the inventory announces two blocks (and
a transaction between them); both blocks are asked for and `last_block_hash_`
becomes the hash of the second. -/
theorem receive_inv_requests_the_wanted_blocks_witness :
    receive_inv error_code.ok
        ⟨[⟨inventory_type.block, 1⟩, ⟨inventory_type.transaction, 5⟩,
          ⟨inventory_type.block, 2⟩]⟩ ⟨0, 0⟩
      = (⟨2, 0⟩,
          [poller_effect.send_get_data
              ⟨[⟨inventory_type.block, 1⟩, ⟨inventory_type.block, 2⟩]⟩,
            poller_effect.subscribe_inventory]) ∧
    wanted_blocks 0 [⟨inventory_type.block, 1⟩, ⟨inventory_type.transaction, 5⟩,
        ⟨inventory_type.block, 2⟩]
      = receive_inv_loop 0 [⟨inventory_type.block, 1⟩, ⟨inventory_type.transaction, 5⟩,
        ⟨inventory_type.block, 2⟩] [] :=
  ⟨by rfl,
    (receive_inv_requests_the_wanted_blocks error_code.ok
      ⟨[⟨inventory_type.block, 1⟩, ⟨inventory_type.transaction, 5⟩,
        ⟨inventory_type.block, 2⟩]⟩ ⟨0, 0⟩ (by rfl)).2.1⟩

/-- C13: an inventory without an error in which every entry of kind block has
the hash `last_block_hash_` (so also an empty one, and one with no block) makes
`receive_inv` send nothing, keep both members and subscribe to inventories
once; and every `receive_inv` without an error subscribes exactly once. -/
theorem receive_inv_with_nothing_to_fetch (ec : error_code) (packet : inventory)
    (s : poller_state) (hec : ec.is_set = false)
    (hnone : ∀ ivv ∈ packet.inventories,
      ivv.type = inventory_type.block → ivv.hash = s.last_block_hash_) :
    receive_inv ec packet s = (s, [poller_effect.subscribe_inventory]) ∧
    ∀ (any : inventory) (t : poller_state),
      (receive_inv ec any t).2.count poller_effect.subscribe_inventory = 1 := by
  have hok := eq_ok_of_not_set ec hec
  subst hok
  refine ⟨?_, ?_⟩
  · apply receive_inv_of_none
    unfold wanted_blocks
    rw [List.filter_eq_nil_iff]
    intro ivv hmem
    by_cases hb : ivv.type = inventory_type.block
    · simp [hb, hnone ivv hmem hb]
    · simp [hb]
  · intro any t
    by_cases h : wanted_blocks t.last_block_hash_ any.inventories ≠ []
    · rw [receive_inv_of_some any t h]
      simp [List.count_cons]
    · rw [receive_inv_of_none any t (by simpa using h)]
      simp [List.count_cons]

/-- C13, on an example: an inventory with a transaction and the block that was
asked for last. -/
theorem receive_inv_with_nothing_to_fetch_witness :
    receive_inv error_code.ok
        ⟨[⟨inventory_type.transaction, 5⟩, ⟨inventory_type.block, 3⟩]⟩ ⟨3, 8⟩
      = (⟨3, 8⟩, [poller_effect.subscribe_inventory]) ∧
    receive_inv error_code.ok ⟨[]⟩ ⟨3, 8⟩ = (⟨3, 8⟩, [poller_effect.subscribe_inventory]) :=
  ⟨(receive_inv_with_nothing_to_fetch error_code.ok
      ⟨[⟨inventory_type.transaction, 5⟩, ⟨inventory_type.block, 3⟩]⟩ ⟨3, 8⟩ (by rfl)
      (by decide)).1,
    by rfl⟩

/-- C14: for every state of the poller and every hash `X`, when the inventory
with the one block `X` comes twice without an error, `last_block_hash_` is `X`
after the first, and for the second the list `receive_inv` builds is empty: it
sends nothing and keeps both members. -/
theorem duplicate_inventory_is_suppressed (first second : error_code) (X : hash_digest)
    (s : poller_state) (h1 : first.is_set = false) (h2 : second.is_set = false) :
    (receive_inv first ⟨[⟨inventory_type.block, X⟩]⟩ s).1.last_block_hash_ = X ∧
    receive_inv_loop
      (receive_inv first ⟨[⟨inventory_type.block, X⟩]⟩ s).1.last_block_hash_
      [⟨inventory_type.block, X⟩] [] = [] ∧
    receive_inv second ⟨[⟨inventory_type.block, X⟩]⟩
        (receive_inv first ⟨[⟨inventory_type.block, X⟩]⟩ s).1
      = ((receive_inv first ⟨[⟨inventory_type.block, X⟩]⟩ s).1,
          [poller_effect.subscribe_inventory]) := by
  have e1 := eq_ok_of_not_set first h1
  have e2 := eq_ok_of_not_set second h2
  subst e1
  subst e2
  have hfirst :
      (receive_inv error_code.ok ⟨[⟨inventory_type.block, X⟩]⟩ s).1.last_block_hash_ = X := by
    by_cases hx : X = s.last_block_hash_
    · rw [receive_inv_of_none _ s (by simp [wanted_blocks, hx])]
      exact hx.symm
    · have hw : wanted_blocks s.last_block_hash_ [⟨inventory_type.block, X⟩]
          = [⟨inventory_type.block, X⟩] := by
        simp [wanted_blocks, hx]
      have hne : wanted_blocks s.last_block_hash_
          (⟨[⟨inventory_type.block, X⟩]⟩ : inventory).inventories ≠ [] := by
        rw [hw]
        simp
      rw [receive_inv_of_some _ s hne]
      simp [hw]
  have hempty : wanted_blocks
      (receive_inv error_code.ok ⟨[⟨inventory_type.block, X⟩]⟩ s).1.last_block_hash_
      [⟨inventory_type.block, X⟩] = [] := by
    rw [hfirst]
    simp [wanted_blocks]
  refine ⟨hfirst, ?_, ?_⟩
  · rw [receive_inv_loop_nil]
    exact hempty
  · exact receive_inv_of_none _ _ hempty

/-- C14, on an example: the block 4 is announced twice to a poller whose
members are 0. -/
theorem duplicate_inventory_is_suppressed_witness :
    receive_inv error_code.ok ⟨[⟨inventory_type.block, 4⟩]⟩ ⟨0, 0⟩
      = (⟨4, 0⟩, [poller_effect.send_get_data ⟨[⟨inventory_type.block, 4⟩]⟩,
          poller_effect.subscribe_inventory]) ∧
    receive_inv error_code.ok ⟨[⟨inventory_type.block, 4⟩]⟩
        (receive_inv error_code.ok ⟨[⟨inventory_type.block, 4⟩]⟩ ⟨0, 0⟩).1
      = ((receive_inv error_code.ok ⟨[⟨inventory_type.block, 4⟩]⟩ ⟨0, 0⟩).1,
          [poller_effect.subscribe_inventory]) :=
  ⟨by rfl,
    (duplicate_inventory_is_suppressed error_code.ok error_code.ok 4 ⟨0, 0⟩
      (by rfl) (by rfl)).2.2⟩

/-- C15: for every state of the poller, every non-empty locator and every stop
hash, `ask_blocks` without an error returns; when the front of the locator is
`last_hash_end_` it sends nothing (it writes a debug line) and keeps both
members; otherwise it sends exactly one `get_blocks` message, whose
`start_hashes` is the whole locator and whose `hash_stop` is the stop hash,
sets `last_hash_end_` to the front and keeps `last_block_hash_`. -/
theorem ask_blocks_sends_unless_same_front (ec : error_code) (locator : block_locator)
    (hash_stop : hash_digest) (s : poller_state) (hec : ec.is_set = false)
    (hne : locator ≠ []) :
    (s.last_hash_end_ = locator.head hne →
      ask_blocks ec locator hash_stop s = some (s, [poller_effect.log_debug])) ∧
    (s.last_hash_end_ ≠ locator.head hne →
      ask_blocks ec locator hash_stop s
        = some (⟨s.last_block_hash_, locator.head hne⟩,
            [poller_effect.send_get_blocks ⟨locator, hash_stop⟩])) := by
  have hok := eq_ok_of_not_set ec hec
  subst hok
  cases locator with
  | nil => exact absurd rfl hne
  | cons front rest =>
    rw [ask_blocks_ok_cons]
    simp only [List.head_cons]
    refine ⟨fun h => ?_, fun h => ?_⟩
    · rw [if_pos h]
    · rw [if_neg h]

/-- C15, on an example: a locator with the front 5 when `last_hash_end_` is 2. -/
theorem ask_blocks_sends_unless_same_front_witness :
    ask_blocks error_code.ok [5, 4, 1] 9 ⟨7, 2⟩
      = some (⟨7, 5⟩, [poller_effect.send_get_blocks ⟨[5, 4, 1], 9⟩]) :=
  (ask_blocks_sends_unless_same_front error_code.ok [5, 4, 1] 9 ⟨7, 2⟩ (by rfl)
    (by decide)).2 (by decide)

/-- C16: in every sequence of handlers of the poller that runs to its end, from
any state, two `get_blocks` messages sent one after the other never have the
same locator front; and a sequence runs to its end from any state when it has
no `ask_blocks` without an error on an empty locator. -/
theorem get_blocks_never_repeats_the_last_front (hash_block_header : block → hash_digest)
    (events : List event) (s : poller_state) (r : poller_state × List poller_effect)
    (hrun : run hash_block_header events s = some r) :
    (∀ (before : List hash_digest) (x y : hash_digest) (after : List hash_digest),
      sent_fronts r.2 = before ++ x :: y :: after → x ≠ y) ∧
    ((∀ ev ∈ events, asks_with_empty_locator ev = false) →
      ∀ t, (run hash_block_header events t).isSome = true) :=
  ⟨chain_adjacent s.last_hash_end_ (sent_fronts r.2)
      (run_fronts_chain hash_block_header events s r hrun),
    fun hall t => run_total hash_block_header events t hall⟩

/-- C16, on an example: the locator front 5 is asked for, asked for again
(suppressed), and after an inventory and an orphan the front 7 is asked for. -/
theorem get_blocks_never_repeats_the_last_front_witness :
    run sample_hash_block_header sample_events ⟨0, 0⟩ = some sample_events_result ∧
    sent_fronts sample_events_result.2 = [5, 7] ∧
    ∀ (before : List hash_digest) (x y : hash_digest) (after : List hash_digest),
      sent_fronts sample_events_result.2 = before ++ x :: y :: after → x ≠ y :=
  ⟨by rfl, by rfl,
    (get_blocks_never_repeats_the_last_front sample_hash_block_header sample_events ⟨0, 0⟩
      sample_events_result (by rfl)).1⟩

/-- C18: for every error code, block info and block hash, `handle_store` keeps
the members of the poller; when the status is orphan (with or without an error)
its one effect is to ask the chain for a block locator whose completion is
`ask_blocks` with that block hash as the stop hash; for any other status its
one effect is a line in the log, so no message is sent and no locator asked
for. -/
theorem handle_store_asks_again_only_for_orphans (ec : error_code) (info : block_info)
    (block_hash : hash_digest) (s : poller_state) :
    (handle_store ec info block_hash s).1 = s ∧
    (info.status = block_status.orphan →
      (handle_store ec info block_hash s).2
        = [poller_effect.fetch_block_locator (locator_handler.ask_blocks block_hash)]) ∧
    (info.status ≠ block_status.orphan →
      (handle_store ec info block_hash s).2 = [poller_effect.log_error] ∨
        (handle_store ec info block_hash s).2 = [poller_effect.log_info]) ∧
    ((∃ completion, poller_effect.fetch_block_locator completion
        ∈ (handle_store ec info block_hash s).2) ↔ info.status = block_status.orphan) ∧
    (handle_store ec info block_hash s).2.filter is_send = [] ∧
    (∀ (answer : error_code) (locator : block_locator) (t : poller_state),
      call_locator_handler (locator_handler.ask_blocks block_hash) answer locator t
        = ask_blocks answer locator block_hash t) ∧
    (∀ (front : hash_digest) (rest : block_locator) (t : poller_state),
      t.last_hash_end_ ≠ front →
      call_locator_handler (locator_handler.ask_blocks block_hash) error_code.ok
          (front :: rest) t
        = some (⟨t.last_block_hash_, front⟩,
            [poller_effect.send_get_blocks ⟨front :: rest, block_hash⟩])) := by
  obtain ⟨status, depth⟩ := info
  refine ⟨?_, ?_, ?_, ?_, ?_, fun _ _ _ => rfl, ?_⟩
  · cases status <;> cases ec <;> rfl
  · intro h
    simp only at h
    subst h
    cases ec <;> rfl
  · intro h
    cases status with
    | orphan => exact absurd rfl h
    | confirmed => cases ec <;> simp [handle_store, error_code.is_set]
    | rejected => cases ec <;> simp [handle_store, error_code.is_set]
  · cases status <;> cases ec <;> simp [handle_store, error_code.is_set]
  · cases status <;> cases ec <;> rfl
  · intro front rest t hne
    show ask_blocks error_code.ok (front :: rest) block_hash t = _
    rw [ask_blocks_ok_cons, if_neg hne]

end poller

/-! ## Claims on two stores and on a store followed by a fetch -/

namespace transaction_pool

/-- C17: for every pool (of capacity 2000) that holds no entry with the hash of
`tx`, when the validations of two stores of `tx` both succeed and their
`handle_delegate` run one after the other: the first puts its entry at the back
of the pool and calls its store handler once with `(ok, unconfirmed)`; the
second leaves the pool as the first left it and calls its store handler once
with `(duplicate, [])`; the pool then holds exactly one entry with the hash of
`tx`, that of the first store. -/
theorem second_store_of_same_transaction_is_duplicate (checked : Bool)
    (hash_transaction : transaction → hash_digest) (tx : transaction)
    (confirm1 confirm2 : confirm_handler) (store1 store2 : store_handler)
    (unconfirmed1 unconfirmed2 : index_list) (pool_ : pool_buffer)
    (hcap : pool_.capacity = 2000)
    (hnew : tx_exists (hash_transaction tx) pool_ = false) :
    ∃ r1 r2,
      handle_delegate checked error_code.ok unconfirmed1
          ⟨hash_transaction tx, tx, confirm1⟩ store1 pool_ = some r1 ∧
      handle_delegate checked error_code.ok unconfirmed2
          ⟨hash_transaction tx, tx, confirm2⟩ store2 r1.1 = some r2 ∧
      r1.1.items.getLast? = some ⟨hash_transaction tx, tx, confirm1⟩ ∧
      r1.2 = [effect.handle_store store1 error_code.ok unconfirmed1] ∧
      r2.1 = r1.1 ∧
      r2.2 = call_store store2 error_code.duplicate [] ∧
      r2.2.filter is_store_call = [effect.handle_store store2 error_code.duplicate []] ∧
      r2.1.items.filter (fun entry => decide (entry.hash = hash_transaction tx))
        = [⟨hash_transaction tx, tx, confirm1⟩] := by
  have hnot := (tx_exists_false_iff (hash_transaction tx) pool_).1 hnew
  have hitems := push_back_items_2000 pool_ ⟨hash_transaction tx, tx, confirm1⟩ hcap
  have hdup : tx_exists (hash_transaction tx)
      (pool_.push_back ⟨hash_transaction tx, tx, confirm1⟩) = true := by
    unfold tx_exists
    rw [tx_exists_loop_iff, hitems]
    simp [hashes]
  refine ⟨_, _, handle_delegate_accept checked unconfirmed1 _ store1 pool_ hnew,
    handle_delegate_duplicate checked unconfirmed2 ⟨hash_transaction tx, tx, confirm2⟩ store2
      _ hdup, ?_, call_store_ok store1 unconfirmed1, rfl, rfl,
    store_calls_call_store _ _ _, ?_⟩
  · rw [hitems]
    simp
  · show (pool_.push_back ⟨hash_transaction tx, tx, confirm1⟩).items.filter _ = _
    rw [hitems, List.filter_append]
    have hnone : (pool_.items.drop (pool_.size + 1 - 2000)).filter
        (fun entry => decide (entry.hash = hash_transaction tx)) = [] := by
      rw [List.filter_eq_nil_iff]
      intro entry hmem
      have hin : entry ∈ pool_.items := List.mem_of_mem_drop hmem
      intro heq
      apply hnot
      have : entry.hash = hash_transaction tx := by simpa using heq
      rw [← this]
      exact List.mem_map_of_mem _ hin
    rw [hnone]
    simp

/-- C17, on an example: the transaction with hash 9 is stored twice into the
pool with the hashes 1, 2 and 3. -/
theorem second_store_of_same_transaction_is_duplicate_witness :
    sample_pool.capacity = 2000 ∧
    tx_exists (sample_hash (sample_entry 9).tx) sample_pool = false ∧
    run true sample_hash
        [pool_op.handle_delegate error_code.ok [] ⟨9, (sample_entry 9).tx, 20⟩
            (store_handler.user 1),
         pool_op.handle_delegate error_code.ok [] ⟨9, (sample_entry 9).tx, 21⟩
            (store_handler.user 2)] sample_pool
      = some (⟨2000, [sample_entry 1, sample_entry 2, sample_entry 3,
                ⟨9, (sample_entry 9).tx, 20⟩]⟩,
          [effect.handle_store (store_handler.user 1) error_code.ok [],
           effect.handle_store (store_handler.user 2) error_code.duplicate []]) ∧
    ∃ r1 r2,
      handle_delegate true error_code.ok [] ⟨9, (sample_entry 9).tx, 20⟩
          (store_handler.user 1) sample_pool = some r1 ∧
      handle_delegate true error_code.ok [] ⟨9, (sample_entry 9).tx, 21⟩
          (store_handler.user 2) r1.1 = some r2 ∧
      r2.1.items.filter (fun entry => decide (entry.hash = 9))
        = [⟨9, (sample_entry 9).tx, 20⟩] := by
  refine ⟨rfl, by decide, by rfl, ?_⟩
  obtain ⟨r1, r2, h1, h2, _, _, _, _, _, h8⟩ :=
    second_store_of_same_transaction_is_duplicate true sample_hash (sample_entry 9).tx 20 21
      (store_handler.user 1) (store_handler.user 2) [] [] sample_pool rfl (by decide)
  exact ⟨r1, r2, h1, h2, h8⟩

/-- C19: for every pool (of capacity 2000, as every pool an execution reaches
is) and every transaction whose hash the pool does not hold and whose
validation succeeds, right after `handle_delegate` has inserted it `exists` of
its hash reports true and `fetch` of its hash reports `(ok, tx)` with that very
transaction; this holds also when the pool was at its capacity. -/
theorem stored_transaction_is_fetched_back (checked : Bool)
    (hash_transaction : transaction → hash_digest) (tx : transaction)
    (handle_confirm : confirm_handler) (handle_store : store_handler)
    (unconfirmed : index_list) (handle_fetch handle_exists : Nat) (pool_ : pool_buffer)
    (hcap : pool_.capacity = 2000)
    (hnew : tx_exists (hash_transaction tx) pool_ = false) :
    ∃ r, handle_delegate checked error_code.ok unconfirmed
          ⟨hash_transaction tx, tx, handle_confirm⟩ handle_store pool_ = some r ∧
      exists_ (hash_transaction tx) handle_exists r.1
        = [effect.handle_exists handle_exists true] ∧
      fetch (hash_transaction tx) handle_fetch r.1
        = [effect.handle_fetch handle_fetch error_code.ok tx] := by
  have hnot := (tx_exists_false_iff (hash_transaction tx) pool_).1 hnew
  have hitems := push_back_items_2000 pool_ ⟨hash_transaction tx, tx, handle_confirm⟩ hcap
  have hfind := find_hash_append (hash_transaction tx)
    (pool_.items.drop (pool_.size + 1 - 2000)) ⟨hash_transaction tx, tx, handle_confirm⟩
    (not_mem_hashes_drop _ _ _ hnot) rfl
  refine ⟨_, handle_delegate_accept checked unconfirmed _ handle_store pool_ hnew, ?_, ?_⟩
  · show [effect.handle_exists handle_exists
      (tx_exists (hash_transaction tx)
        (pool_.push_back ⟨hash_transaction tx, tx, handle_confirm⟩))] = _
    unfold tx_exists
    rw [tx_exists_loop_eq, hitems, hfind]
    rfl
  · show fetch_loop (hash_transaction tx) handle_fetch
      (pool_.push_back ⟨hash_transaction tx, tx, handle_confirm⟩).items = _
    rw [fetch_loop_eq, hitems, hfind]

/-- C19, on the pool of 2000 entries with the hashes 0 to 1999: the transaction
with hash 2000 is stored and fetched back. -/
theorem stored_transaction_is_fetched_back_witness :
    full_pool.capacity = 2000 ∧ full_pool.size = 2000 ∧
    tx_exists (sample_hash (sample_entry 2000).tx) full_pool = false ∧
    ∃ r, handle_delegate true error_code.ok [] (sample_entry 2000) (store_handler.user 1)
          full_pool = some r ∧
      exists_ 2000 8 r.1 = [effect.handle_exists 8 true] ∧
      fetch 2000 7 r.1 = [effect.handle_fetch 7 error_code.ok (sample_entry 2000).tx] :=
  ⟨rfl, full_pool_length, full_pool_fresh,
    stored_transaction_is_fetched_back true sample_hash (sample_entry 2000).tx 2000
      (store_handler.user 1) [] 7 8 full_pool rfl full_pool_fresh⟩

end transaction_pool

end libbitcoin
